import Mathlib

/-!
Shallow embedding of the horse-management core (src/utilities.py and
src/decisions.py) and proofs of the specification claims.

Modelling conventions:
* Python floats are modelled by exact rationals `ℚ` (for values that only
  flow through sums, comparisons and divisions) or by `ℝ` where a square
  root is mathematically required (cosine similarity).
* A Python `assert` that aborts a call is modelled by an `Except Err`
  result; the constructors of `Err` follow the spec's error taxonomy,
  plus `stopIteration` for the unhandled `StopIteration` that
  `next(iter(...))` raises on an empty dictionary.
* Python dictionaries (which preserve insertion order, and on key
  re-insertion keep the original position while updating the value) are
  modelled by association lists `List (String × String)` together with
  `dictInsert`/`dictOfPairs`.
-/

/-- Error outcomes of the core operations, following the spec's taxonomy
(ValidationError, ConstraintError) plus the raw `StopIteration` escape that
`permutation_cycle_decomp` hits on an empty dictionary. -/
inductive Err : Type
  | validation
  | constraint
  | stopIteration
deriving DecidableEq, Repr

instance {ε α : Type} [DecidableEq ε] [DecidableEq α] : DecidableEq (Except ε α) :=
  fun x y =>
    match x, y with
    | .error e, .error f =>
      if h : e = f then .isTrue (congrArg Except.error h)
      else .isFalse (fun he => h (Except.error.inj he))
    | .error _, .ok _ => .isFalse (fun he => Except.noConfusion he)
    | .ok _, .error _ => .isFalse (fun he => Except.noConfusion he)
    | .ok a, .ok b =>
      if h : a = b then .isTrue (congrArg Except.ok h)
      else .isFalse (fun he => h (Except.ok.inj he))

/-- Code-point lexicographic strict order on character sequences, the
ordering Python applies to strings. -/
def charListLTb : List Char → List Char → Bool
  | [], [] => false
  | [], _ :: _ => true
  | _ :: _, [] => false
  | a :: as, b :: bs =>
    if a.toNat < b.toNat then true
    else if b.toNat < a.toNat then false
    else charListLTb as bs

/-- Boolean `a <= b` on strings under code-point lexicographic order, used
by `sorted([name1, name2])` in decisions.py:184. -/
def strLEb (a b : String) : Bool := !(charListLTb b.data a.data)

/-! ## utilities.py -/

/-- Source: `compute_energy` (utilities.py:87-92) — `np.sum(x)`, a plain
signed sum of the vector entries. -/
def compute_energy (x : List ℚ) : ℚ := x.sum

/-- Sum of squares of the entries, i.e. the square of the euclidean norm
`np.linalg.norm(x)` used in `compute_centrality` (utilities.py:103). -/
def normSq (x : List ℚ) : ℚ := (x.map (fun t => t * t)).sum

/-- Entrywise embedding of a rational vector into the reals (the exact
values the Python floats denote). -/
def castR (x : List ℚ) : List ℝ := x.map (fun (t : ℚ) => (t : ℝ))

/-- Dot product of two real vectors, as `np.dot` (utilities.py:106). -/
noncomputable def dotL (a b : List ℝ) : ℝ := ((a.zip b).map (fun p => p.1 * p.2)).sum

/-- Euclidean norm `np.linalg.norm` of a real vector (utilities.py:103-104). -/
noncomputable def normL (a : List ℝ) : ℝ := Real.sqrt ((a.map (fun t => t * t)).sum)

/-- Source: `compute_centrality` (utilities.py:95-106) — the cosine
similarity `np.dot(x / ‖x‖, x0 / ‖x0‖)` of `x` with the all-ones vector
`x0 = np.ones(len(x))`.  The source performs no zero-vector check: for the
zero vector numpy computes `0/0` entrywise and returns NaN with only a
RuntimeWarning; in this exact-real model division by the zero norm follows
Lean's `x / 0 = 0` convention instead, and no error value exists because
the source raises none. -/
noncomputable def compute_centrality (x : List ℚ) : ℝ :=
  let xr : List ℝ := castR x
  let x0 : List ℝ := List.replicate x.length 1
  dotL (xr.map (fun t => t / normL xr)) (x0.map (fun t => t / normL x0))

/-- Strictly monotone "signed square" transform `t ↦ sign(t)·t²`.  It is
used only to justify `centralityKey` below: applying it to the cosine
similarity clears the square roots while preserving order exactly. -/
noncomputable def sgnSq (t : ℝ) : ℝ := if t < 0 then -(t ^ 2) else t ^ 2

/-- Order-faithful rational representation of the centrality of a
NON-ZERO vector, used as the centrality component of the rational ranking
key: `centralityKey x = sgnSq (compute_centrality x)` whenever
`normSq x ≠ 0` (theorem `centralityKey_eq_sgnSq_centrality`), so on
populations of non-zero rows comparing `centralityKey` values is exactly
comparing the cosine similarities.  For the zero vector the source
computes `0/0` = NaN, which this rational value does NOT represent (the
`ℚ` quotient merely degenerates to `0`); the NaN case is modelled by
`centralityKeyFl` below, whose `none` value reproduces NaN's
incomparability, and the ranking theorem accordingly restricts to
populations of non-zero primary rows (see
`get_ranks_key_nan_counterexample` for what goes wrong at a zero row). -/
def centralityKey (x : List ℚ) : ℚ :=
  let s := x.sum
  let d := normSq x * (x.length : ℚ)
  if s < 0 then -(s ^ 2 / d) else s ^ 2 / d

/-- Worker for `drop_duplicates`: keeps each row not already seen, in
order, accumulating the seen values. -/
def ddGo : List (List ℚ) → List (List ℚ) → List (List ℚ)
  | [], _ => []
  | a :: l, seen => if a ∈ seen then ddGo l seen else a :: ddGo l (a :: seen)

/-- Source: `df.drop_duplicates()` (utilities.py:75) — keeps the first
occurrence of each distinct row value, in order. -/
def drop_duplicates (l : List (List ℚ)) : List (List ℚ) := ddGo l []

/-- Componentwise `row <= other` over equal-length rows, as the pandas
expression `(row <= df).all(axis=1)` (utilities.py:83). -/
def leAll (v w : List ℚ) : Bool := (v.zip w).all (fun p => decide (p.1 ≤ p.2))

/-- Source: `_check_pareto_optimal` (utilities.py:79-84) — the row is
Pareto optimal iff exactly one row of the deduplicated frame weakly
dominates it (that one row being the row's own value). -/
def _check_pareto_optimal (row : List ℚ) (df : List (List ℚ)) : Bool :=
  df.countP (fun w => leAll row w) == 1

/-- Source: `flag_pareto_optimal` (utilities.py:71-76) — one flag per row,
each row tested against the frame with duplicates dropped. -/
def flag_pareto_optimal (df : List (List ℚ)) : List Bool :=
  df.map (fun row => _check_pareto_optimal row (drop_duplicates df))

/-- First-occurrence lookup in an association list (the `node in perm_dict`
test plus `perm_dict[node]` of utilities.py:128-130). -/
def lookupKey (k : String) : List (String × String) → Option String
  | [] => none
  | p :: d => if p.1 = k then some p.2 else lookupKey k d

/-- Removal of the (unique) entry with the given key, modelling
`del perm_dict[node]` (utilities.py:132). -/
def removeKey (k : String) : List (String × String) → List (String × String)
  | [] => []
  | p :: d => if p.1 = k then d else p :: removeKey k d

/-- Main loop of `permutation_cycle_decomp` (utilities.py:127-144): follow
the permutation from `node`, transferring entries of `d` into the current
cycle `cur`; when `node` is no longer present a cycle has closed, so start
a fresh cycle from the first remaining key (the fresh key is immediately
transferred, exactly as the Python loop does on its next iteration).
`acc` holds the completed cycles in order.  The `fuel` argument makes the
recursion structural; every call supplies `fuel = d.length`, which each
step maintains exactly (the transfer branch removes one entry, the
fresh-cycle branch consumes the head), so the `fuel = 0` clause only ever
fires with `d = []`, where it coincides with the loop exit. -/
def decompGo : Nat → List (String × String) → String →
    List (String × String) → List (List (String × String)) →
    List (List (String × String))
  | 0, _, _, cur, acc => acc ++ [cur]
  | fuel + 1, d, node, cur, acc =>
    match lookupKey node d with
    | some v => decompGo fuel (removeKey node d) v (cur ++ [(node, v)]) acc
    | none =>
      match d with
      | [] => acc ++ [cur]
      | (k, v) :: rest => decompGo fuel rest v [(k, v)] (acc ++ [cur])

/-- Source: `permutation_cycle_decomp` (utilities.py:109-146).  The assert
that keys and values form the same set maps to `Err.validation`; on an
empty dictionary the subsequent `next(iter(perm_dict.keys()))` raises an
unhandled `StopIteration`, modelled by `Err.stopIteration`.  Otherwise the
first cycle starts from the first key and the loop runs to depletion. -/
def permutation_cycle_decomp (d : List (String × String)) :
    Except Err (List (List (String × String))) :=
  if ((d.map Prod.fst).all (fun k => decide (k ∈ d.map Prod.snd)) &&
      (d.map Prod.snd).all (fun k => decide (k ∈ d.map Prod.fst))) = true then
    match d with
    | [] => .error .stopIteration
    | (k, _) :: _ => .ok (decompGo d.length d k [] [])
  else .error .validation

/-- Python-dict insertion: if the key is present its value is updated in
place (keeping the original position), otherwise the pair is appended. -/
def dictInsert (d : List (String × String)) (k v : String) : List (String × String) :=
  if (d.map Prod.fst).contains k then
    d.map (fun p => if p.1 = k then (k, v) else p)
  else d ++ [(k, v)]

/-- Python-dict construction from a pair sequence, as
`dict(zip(names_old, names_new))` (decisions.py:167-169). -/
def dictOfPairs (l : List (String × String)) : List (String × String) :=
  l.foldl (fun d p => dictInsert d p.1 p.2) []

/-! ## decisions.py : propose_merge -/

/-- Number of `True` flags, as Python `sum(flags)`. -/
def countTrue (l : List Bool) : Nat := l.countP id

/-- Instruction classification of one entity from its
`(main_zone, keep)` flags (decisions.py:95-109). -/
inductive IType : Type
  | keep
  | kill_primary
  | move
  | kill_secondary
deriving DecidableEq, Repr

/-- Classification table of decisions.py:95-109: main zone keepers,
main zone killers, secondary zone keepers (movers), secondary killers. -/
def classify (main keep : Bool) : IType :=
  if main && keep then .keep
  else if main && !keep then .kill_primary
  else if !main && keep then .move
  else .kill_secondary

/-- Positions (in input order) of the rows with the given instruction
type, as `df.query('instruction_type == ...').index` (decisions.py:115-116);
`i` is the index of the first row of the remaining list. -/
def typeIdxsAux (t : IType) : Nat → List (Bool × Bool) → List Nat
  | _, [] => []
  | i, (k, m) :: rest =>
    if classify m k = t then i :: typeIdxsAux t (i + 1) rest
    else typeIdxsAux t (i + 1) rest

/-- Positions of rows of type `t`, rows being `(keep, main_zone)` pairs. -/
def typeIdxs (t : IType) (keeps mains : List Bool) : List Nat :=
  typeIdxsAux t 0 (keeps.zip mains)

/-- Lookup of the paired target index for a move row, from the zipped
index lists of decisions.py:120-121. -/
def lookupNat (i : Nat) (l : List (Nat × Nat)) : Option Nat :=
  (l.find? (fun p => p.1 == i)).map Prod.snd

/-- Instruction text of one row at index `i` (decisions.py:114-132): keep
rows get `"<name>: keep"`, every kill row (primary or secondary) gets
`"<name>: kill"`, and a move row gets `"<name>: move to <target name>"`
with the target looked up among the move/kill_primary index pairs.  (The
`none` fallback is unreachable once the capacity precondition holds; in
Python an unpaired move row would leave a null instruction and trip the
sanity assert of decisions.py:135.) -/
def mergeRowInstr (names : List String) (pairs : List (Nat × Nat)) (i : Nat)
    (row : String × Bool × Bool) : String :=
  match classify row.2.2 row.2.1 with
  | .keep => row.1 ++ ": keep"
  | .move =>
    (match lookupNat i pairs with
     | some j => row.1 ++ ": move to " ++ names.getD j ""
     | none => "")
  | _ => row.1 ++ ": kill"

/-- Per-row instruction texts of decisions.py:114-132, one per input row
in input order; `i` is the index of the first row. -/
def mergeInstrAux (names : List String) (pairs : List (Nat × Nat)) :
    Nat → List (String × Bool × Bool) → List String
  | _, [] => []
  | i, row :: rest =>
    mergeRowInstr names pairs i row :: mergeInstrAux names pairs (i + 1) rest

/-- Instruction list of `propose_merge` once the preconditions hold
(decisions.py:90-139): move rows are paired positionally with the
kill_primary rows, the kill_primary index list being truncated to the
number of moves (decisions.py:115-124). -/
def mergeInstructions (names : List String) (keeps mains : List Bool) : List String :=
  let mids := typeIdxs .move keeps mains
  let kids := (typeIdxs .kill_primary keeps mains).take mids.length
  mergeInstrAux names (mids.zip kids) 0 (names.zip (keeps.zip mains))

/-- Source: `propose_merge` (decisions.py:57-139).  The length asserts
(decisions.py:69-74) map to `Err.validation`; the capacity assert
`sum(keeps) <= sum(main_zones)` (decisions.py:86-88) maps to
`Err.constraint`.  (The `isinstance` asserts are structural in this typed
model.)  A failed call returns no instructions. -/
def propose_merge (names : List String) (keeps mains : List Bool) :
    Except Err (List String) :=
  if names.length = keeps.length then
    if names.length = mains.length then
      if countTrue keeps ≤ countTrue mains then
        .ok (mergeInstructions names keeps mains)
      else .error .constraint
    else .error .validation
  else .error .validation

/-! ## decisions.py : get_ranks -/

/-- Strict comparison `a < b` on rationals as a boolean, the scalar float
comparison underlying Python tuple ordering. -/
def ratLTb (a b : ℚ) : Bool := decide (a < b)

/-- Python boolean ordering `False < True`. -/
def boolLTb (a b : Bool) : Bool := !a && b

/-- Python tuple/list lexicographic strict order on rational sequences
(used for the attribute-block components of the ranking tuple; within one
population all rows have equal length, where this is plain lexicographic
comparison). -/
def listLTb : List ℚ → List ℚ → Bool
  | [], [] => false
  | [], _ :: _ => true
  | _ :: _, [] => false
  | a :: as, b :: bs =>
    if a < b then true else if b < a then false else listLTb as bs

/-- Lexicographic combination of two strict orders, as Python compares
nested tuples. -/
def lexLTb {α β : Type} [DecidableEq α] (ltA : α → α → Bool) (ltB : β → β → Bool)
    (x y : α × β) : Bool :=
  ltA x.1 y.1 || (decide (x.1 = y.1) && ltB x.2 y.2)

/-- Composite ranking key of one entity (decisions.py:42-46): Pareto flag,
energy, centrality, primary attribute values in order, secondary attribute
values in order. -/
abbrev RKey : Type := Bool × ℚ × ℚ × List ℚ × List ℚ

/-- Strict "greater ranks first" tuple order on ranking keys: the
lexicographic order Python applies to the key tuples
`(pareto_optimal, energy, centrality, *primary, *secondary)`
(decisions.py:47-52), with the centrality component represented by its
order-faithful rational image `centralityKey`. -/
def keyLT : RKey → RKey → Bool :=
  lexLTb boolLTb (lexLTb ratLTb (lexLTb ratLTb (lexLTb listLTb listLTb)))

/-- Properties making a boolean comparison a strict linear order:
irreflexive, transitive, and total on distinct elements.  The tuple
comparisons Python performs on the ranking keys satisfy all three. -/
structure IsStrictLinear {α : Type} (lt : α → α → Bool) : Prop where
  irrefl : ∀ a, lt a a = false
  trans : ∀ a b c, lt a b = true → lt b c = true → lt a c = true
  total : ∀ a b, a ≠ b → lt a b = true ∨ lt b a = true

/-- Rank of the element `a` sitting at position `i` of `keys` under
`.rank(method="first", ascending=False)`: one plus the number of strictly
greater keys anywhere, plus the number of equal keys at earlier
positions. -/
def rankAt {α : Type} [DecidableEq α] (lt : α → α → Bool) (keys : List α)
    (i : Nat) (a : α) : Nat :=
  1 + keys.countP (fun b => lt a b) + (keys.take i).countP (fun b => b == a)

/-- Ranks of all elements in input order, starting at position `s`. -/
def rankFirstDescAux {α : Type} [DecidableEq α] (lt : α → α → Bool) (keys : List α) :
    Nat → List α → List Nat
  | _, [] => []
  | s, a :: rest => rankAt lt keys s a :: rankFirstDescAux lt keys (s + 1) rest

/-- Semantics of pandas `.rank(method="first", ascending=False).astype(int)`
(decisions.py:47-52): dense ranks `1..N`, descending in the key, ties
broken by input position. -/
def rankFirstDesc {α : Type} [DecidableEq α] (lt : α → α → Bool) (keys : List α) :
    List Nat :=
  rankFirstDescAux lt keys 0 keys

/-- Ranking key of every entity (decisions.py:32-46): the Pareto flags are
computed on the primary frame, energy and centrality on each primary row,
and the raw primary and secondary rows complete the tuple. -/
def rankKeys (prim sec : List (List ℚ)) : List RKey :=
  ((flag_pareto_optimal prim).zip (prim.zip sec)).map
    (fun fps => (fps.1, compute_energy fps.2.1, centralityKey fps.2.1, fps.2.1, fps.2.2))

/-- Source: `get_ranks` (decisions.py:14-54).  The index-equality assert
(decisions.py:23-25) is modelled as equality of frame lengths (both frames
carry the positional range index), the column-overlap assert
(decisions.py:26-28) as disjointness of the column-name lists; both map to
`Err.validation`.  On success, ranks are assigned per entity in input
order. -/
def get_ranks (primCols secCols : List String) (prim sec : List (List ℚ)) :
    Except Err (List Nat) :=
  if prim.length = sec.length then
    if primCols.all (fun c => decide (c ∉ secCols)) then
      .ok (rankFirstDesc keyLT (rankKeys prim sec))
    else .error .validation
  else .error .validation

/-- Python float semantics of the centrality slot of the ranking tuple:
`none` models the NaN that numpy produces on a zero row (`0/0`,
utilities.py:103, with only a RuntimeWarning), and `some q` models a
well-defined centrality through its order-faithful signed-square image
`centralityKey` (justified by `centralityKey_eq_sgnSq_centrality`). -/
def centralityKeyFl (x : List ℚ) : Option ℚ :=
  if normSq x = 0 then none else some (centralityKey x)

/-- Python `<` on float centrality slots: every comparison against NaN is
false. -/
def flLT : Option ℚ → Option ℚ → Bool
  | some a, some b => decide (a < b)
  | _, _ => false

/-- Python `==` on float centrality slots: NaN equals nothing, itself
included. -/
def flEq : Option ℚ → Option ℚ → Bool
  | some a, some b => decide (a = b)
  | _, _ => false

/-- Ranking key carrying the float (possibly NaN) centrality slot. -/
abbrev RKeyFl : Type := Bool × ℚ × Option ℚ × List ℚ × List ℚ

/-- Embedding of a NaN-free rational key into the float keys. -/
def toFl (k : RKey) : RKeyFl :=
  (k.1, k.2.1, some k.2.2.1, k.2.2.2.1, k.2.2.2.2)

/-- Python tuple `<` on the float ranking keys: skip the `==`-equal
prefix, then decide by `<` at the first differing slot; at a NaN slot both
tests are false, so the whole comparison is false in either direction —
NaN-poisoned tuples are incomparable and the comparison is not a linear
order. -/
def keyLTfl (x y : RKeyFl) : Bool :=
  boolLTb x.1 y.1 || (decide (x.1 = y.1) &&
    (ratLTb x.2.1 y.2.1 || (decide (x.2.1 = y.2.1) &&
      (flLT x.2.2.1 y.2.2.1 || (flEq x.2.2.1 y.2.2.1 &&
        (listLTb x.2.2.2.1 y.2.2.2.1 || (decide (x.2.2.2.1 = y.2.2.2.1) &&
          listLTb x.2.2.2.2 y.2.2.2.2)))))))

/-- Ranking keys of every entity with the float NaN semantics of the
centrality slot (decisions.py:32-46, with utilities.py:95-106 computing
NaN on a zero row). -/
def rankKeysFl (prim sec : List (List ℚ)) : List RKeyFl :=
  ((flag_pareto_optimal prim).zip (prim.zip sec)).map
    (fun fps => (fps.1, compute_energy fps.2.1, centralityKeyFl fps.2.1,
      fps.2.1, fps.2.2))

/-! ## decisions.py : propose_reorg -/

/-- Insertion of a `(name, rank)` pair into a rank-sorted list. -/
def insertByRank (p : String × Int) : List (String × Int) → List (String × Int)
  | [] => [p]
  | q :: l => if p.2 ≤ q.2 then p :: q :: l else q :: insertByRank p l

/-- Ascending sort of `(name, rank)` pairs by rank, modelling
`df.sort_values("rank", ascending=True)` (decisions.py:166); the validated
ranks are distinct, so any correct sort produces the same sequence. -/
def sortByRank : List (String × Int) → List (String × Int)
  | [] => []
  | p :: l => insertByRank p (sortByRank l)

/-- Permutation dictionary of decisions.py:160-169: old names (names in
ascending rank order) zipped with new names (names in input order), built
with Python-dict insertion semantics. -/
def buildPerm (names : List String) (ranks : List Int) : List (String × String) :=
  dictOfPairs (((sortByRank (names.zip ranks)).map Prod.fst).zip names)

/-- Instruction block emitted for one cycle (decisions.py:176-206).
Length-1 cycles emit nothing; a 2-cycle emits one `Swap` line over the
first pair's two names in ascending order; a longer cycle emits a `Stash`
of the last pair's target followed by `Move` lines walking the cycle in
reverse (fixed pairs skipped), with the final emitted line popped and
rewritten as the stashed-horse move whose target is the loop's final
`name_new`, i.e. the first pair's target.  (The empty-cycle case is
unreachable: the decomposition only produces non-empty cycles; Python
would raise an IndexError on `cycle[-1]` there.) -/
def cycleMoves (c : List (String × String)) : List String :=
  match c with
  | [] => []
  | [_] => []
  | [(n1, n2), _] =>
    if strLEb n1 n2 then ["Swap " ++ n1 ++ " and " ++ n2]
    else ["Swap " ++ n2 ++ " and " ++ n1]
  | p :: rest =>
    let c' := p :: rest
    let name_stash := (c'.getLast (List.cons_ne_nil p rest)).2
    let movesRev :=
      (c'.reverse.filter (fun q => decide (q.1 ≠ q.2))).map
        (fun q => "Move " ++ q.1 ++ " to " ++ q.2)
    (("Stash " ++ name_stash) :: movesRev).dropLast ++
      ["Move the stashed horse to " ++ p.2]

/-- Tail of `propose_reorg` (decisions.py:208-213): an empty move list is
replaced by the "no moves" sentinel, and a result of fewer than two lines
gets an empty string appended ("making sure the output definitely looks
like a list"). -/
def finalizeMoves (moves : List String) : List String :=
  let m1 := if moves.length = 0 then ["No moves recommended"] else moves
  if m1.length < 2 then m1 ++ [""] else m1

/-- Ranks `1..n` as integers, the validated rank set `set(range(1, len+1))`
(decisions.py:156-158). -/
def rankRange (n : Nat) : List Int := (List.range n).map (fun (i : Nat) => (i : Int) + 1)

/-- Set equality `set(ranks) == set(range(1, len(ranks)+1))`
(decisions.py:156-158). -/
def rankSetOK (ranks : List Int) : Bool :=
  (rankRange ranks.length).all (fun r => decide (r ∈ ranks)) &&
    ranks.all (fun r => decide (r ∈ rankRange ranks.length))

/-- Source: `propose_reorg` (decisions.py:142-213).  The two asserts
(decisions.py:153-158) map to `Err.validation`; an error raised by the
cycle decomposition (in particular `StopIteration` on the empty
permutation) propagates; otherwise the per-cycle instruction blocks are
concatenated in order and the tail adjustments applied. -/
def propose_reorg (names : List String) (ranks : List Int) :
    Except Err (List String) :=
  if names.length = ranks.length then
    if rankSetOK ranks then
      match permutation_cycle_decomp (buildPerm names ranks) with
      | .error e => .error e
      | .ok cycles => .ok (finalizeMoves ((cycles.map cycleMoves).flatten))
    else .error .validation
  else .error .validation

/-! ## Theorems -/

/-- C10: on the empty input the validation (equal lengths, rank set equal
to `{1..0} = ∅`) accepts the call, but the cycle decomposition then fails
with the unhandled `StopIteration` of `next(iter({}))` instead of
returning the sentinel or a ValidationError. -/
theorem propose_reorg_empty_input_stop_iteration :
    ([] : List String).length = ([] : List Int).length ∧
    rankSetOK [] = true ∧
    propose_reorg [] [] = .error .stopIteration := by
  refine ⟨rfl, rfl, rfl⟩

/-- C9: `propose_reorg` fails with a ValidationError (and returns no
instructions) whenever the name and rank sequences have different lengths,
and likewise whenever the rank multiset is not exactly `{1..N}`. -/
theorem propose_reorg_validation_errors (names : List String) (ranks : List Int) :
    (names.length ≠ ranks.length → propose_reorg names ranks = .error .validation) ∧
    (rankSetOK ranks = false → propose_reorg names ranks = .error .validation) := by
  constructor
  · intro h
    simp [propose_reorg, h]
  · intro h
    by_cases hl : names.length = ranks.length
    · simp [propose_reorg, hl, h]
    · simp [propose_reorg, hl]

theorem propose_reorg_validation_errors_witness :
    propose_reorg ["A"] [2] = .error .validation :=
  (propose_reorg_validation_errors ["A"] [2]).2 rfl

/-- C5: `propose_merge` fails with a ValidationError whenever the three
sequences do not all have equal length, and — the lengths being equal —
with a ConstraintError whenever there are more keepers than main-zone
slots; a failed call returns no instructions. -/
theorem propose_merge_error_cases (names : List String) (keeps mains : List Bool) :
    (names.length ≠ keeps.length ∨ names.length ≠ mains.length →
      propose_merge names keeps mains = .error .validation) ∧
    (names.length = keeps.length → names.length = mains.length →
      countTrue mains < countTrue keeps →
      propose_merge names keeps mains = .error .constraint) := by
  constructor
  · intro h
    rcases h with h | h
    · simp [propose_merge, h]
    · by_cases hk : names.length = keeps.length
      · unfold propose_merge
        rw [if_pos hk, if_neg h]
      · simp [propose_merge, hk]
  · intro hk hm hc
    unfold propose_merge
    rw [if_pos hk, if_pos hm, if_neg (Nat.not_le.mpr hc)]

theorem propose_merge_error_cases_witness :
    propose_merge ["a", "b", "c"] [true, true, true] [true, true, false] =
      .error .constraint :=
  (propose_merge_error_cases ["a", "b", "c"] [true, true, true] [true, true, false]).2
    rfl rfl (by decide)

/-- C2 counterexample: on names `["A","B","C"]` with ranks `[2,3,1]` the
permutation is the 3-cycle `{C→A, A→B, B→C}`, and the code emits four
instructions (one stash plus three moves, the last rewritten), not the
three lines the claim predicts. -/
theorem propose_reorg_three_cycle_counterexample :
    propose_reorg ["A", "B", "C"] [2, 3, 1] =
      .ok ["Stash C", "Move B to C", "Move A to B", "Move the stashed horse to A"] ∧
    propose_reorg ["A", "B", "C"] [2, 3, 1] ≠
      .ok ["stash C", "move B to C", "move the stashed horse to B"] := by
  refine ⟨rfl, by decide⟩

/-- C7 counterexample: on names `["X","Y"]` with ranks `[2,1]` the code
emits the swap line followed by a padding empty string (the
`len(moves) < 2` adjustment of decisions.py:211-212), so the output is not
the single claimed instruction. -/
theorem propose_reorg_swap_counterexample :
    propose_reorg ["X", "Y"] [2, 1] = .ok ["Swap X and Y", ""] ∧
    propose_reorg ["X", "Y"] [2, 1] ≠ .ok ["swap X and Y"] := by
  refine ⟨rfl, by decide⟩

/-- C8 counterexample: on an already-sorted ranking the code returns the
sentinel plus a padding empty string, two elements rather than the single
sentinel the claim states; and on the empty (validation-accepted) input it
raises instead of producing the sentinel. -/
theorem propose_reorg_identity_counterexample :
    propose_reorg ["A"] [1] = .ok ["No moves recommended", ""] ∧
    (["No moves recommended", ""] : List String) ≠ ["No moves recommended"] ∧
    propose_reorg [] [] ≠ .ok ["No moves recommended"] := by
  refine ⟨rfl, by decide, by decide⟩

/-- C4 counterexample: every instruction is prefixed with the entity's own
name, and a kill_primary entity chosen as a move target still receives its
own `"<name>: kill"` line — with names `["A","B"]`, keeps `[false,true]`,
main zones `[true,false]`, entity `A` is the paired move target yet the
output is `["A: kill", "B: move to A"]`, not the bare `"move to A"` texts
the claim states. -/
theorem propose_merge_instruction_text_counterexample :
    propose_merge ["A", "B"] [false, true] [true, false] =
      .ok ["A: kill", "B: move to A"] ∧
    propose_merge ["A", "B"] [false, true] [true, false] ≠
      .ok ["kill", "move to A"] := by
  refine ⟨rfl, by decide⟩

/-! ### Helper lemmas for the reorg theorems -/

theorem lookupKey_eq_none_iff (k : String) (d : List (String × String)) :
    lookupKey k d = none ↔ k ∉ d.map Prod.fst := by
  induction d with
  | nil => simp [lookupKey]
  | cons p rest ih =>
    by_cases hp : p.1 = k
    · simp [lookupKey, hp]
    · simp only [lookupKey, hp, if_false, List.map_cons, List.mem_cons, not_or, ih]
      constructor
      · intro h
        exact ⟨fun hk => hp hk.symm, h⟩
      · intro h
        exact h.2

theorem insertByRank_head_le (p : String × Int) (l : List (String × Int))
    (h : ∀ q ∈ l, p.2 ≤ q.2) : insertByRank p l = p :: l := by
  cases l with
  | nil => rfl
  | cons q rest => simp [insertByRank, h q (List.mem_cons_self q rest)]

theorem sortByRank_sorted_id (l : List (String × Int))
    (h : l.Pairwise (fun p q => p.2 ≤ q.2)) : sortByRank l = l := by
  induction l with
  | nil => rfl
  | cons p rest ih =>
    rw [List.pairwise_cons] at h
    rw [sortByRank, ih h.2, insertByRank_head_le p rest h.1]

theorem zip_self_eq_map (names : List String) :
    names.zip names = names.map (fun x => (x, x)) := by
  induction names with
  | nil => rfl
  | cons a l ih => simp [List.zip_cons_cons, ih]

theorem dictInsert_fixed_nodup (acc : List (String × String)) (k : String)
    (h1 : ∀ p ∈ acc, p.1 = p.2) (h2 : (acc.map Prod.fst).Nodup) :
    (∀ p ∈ dictInsert acc k k, p.1 = p.2) ∧
      ((dictInsert acc k k).map Prod.fst).Nodup := by
  unfold dictInsert
  by_cases hc : (acc.map Prod.fst).contains k = true
  · rw [if_pos hc]
    constructor
    · intro p hp
      rcases List.mem_map.mp hp with ⟨q, hq, hpq⟩
      by_cases hqk : q.1 = k
      · simp only [hqk, if_true] at hpq
        simp [← hpq]
      · simp only [hqk, if_false] at hpq
        exact hpq ▸ h1 q hq
    · have hmm : ((acc.map (fun p => if p.1 = k then (k, k) else p)).map Prod.fst) =
          acc.map Prod.fst := by
        rw [List.map_map]
        refine List.map_congr_left (fun p _ => ?_)
        by_cases hpk : p.1 = k
        · simp [hpk]
        · simp [hpk]
      rw [hmm]
      exact h2
  · rw [if_neg hc]
    have hk : k ∉ acc.map Prod.fst := by
      intro hmem
      exact hc (List.elem_iff.mpr hmem)
    constructor
    · intro p hp
      rcases List.mem_append.mp hp with hp | hp
      · exact h1 p hp
      · simp at hp
        simp [hp]
    · rw [List.map_append]
      simp [List.nodup_append, h2, hk]

theorem dictFold_fixed_nodup (l : List (String × String)) :
    ∀ acc : List (String × String), (∀ p ∈ l, p.1 = p.2) →
      (∀ p ∈ acc, p.1 = p.2) → (acc.map Prod.fst).Nodup →
      (∀ p ∈ l.foldl (fun d p => dictInsert d p.1 p.2) acc, p.1 = p.2) ∧
        ((l.foldl (fun d p => dictInsert d p.1 p.2) acc).map Prod.fst).Nodup := by
  induction l with
  | nil => exact fun acc _ h1 h2 => ⟨h1, h2⟩
  | cons p rest ih =>
    intro acc hl h1 h2
    have hp : p.1 = p.2 := hl p (List.mem_cons_self p rest)
    have hstep := dictInsert_fixed_nodup acc p.1 h1 h2
    rw [List.foldl_cons]
    have hins : dictInsert acc p.1 p.2 = dictInsert acc p.1 p.1 := by rw [hp]
    rw [hins]
    exact ih _ (fun q hq => hl q (List.mem_cons_of_mem p hq)) hstep.1 hstep.2

theorem dictOfPairs_fixed_nodup (l : List (String × String))
    (hl : ∀ p ∈ l, p.1 = p.2) :
    (∀ p ∈ dictOfPairs l, p.1 = p.2) ∧ ((dictOfPairs l).map Prod.fst).Nodup :=
  dictFold_fixed_nodup l [] hl (by simp) (by simp)


theorem dictInsert_ne_nil (d : List (String × String)) (k v : String) :
    dictInsert d k v ≠ [] := by
  unfold dictInsert
  by_cases hc : (d.map Prod.fst).contains k = true
  · rw [if_pos hc]
    intro h
    rw [List.map_eq_nil_iff] at h
    subst h
    simp [List.contains] at hc
  · rw [if_neg hc]
    simp

theorem dictFold_ne_nil (l acc : List (String × String)) (h : acc ≠ [] ∨ l ≠ []) :
    l.foldl (fun d p => dictInsert d p.1 p.2) acc ≠ [] := by
  induction l generalizing acc with
  | nil =>
    rcases h with h | h
    · exact h
    · exact absurd rfl h
  | cons p rest ih =>
    rw [List.foldl_cons]
    exact ih (dictInsert acc p.1 p.2) (Or.inl (dictInsert_ne_nil acc p.1 p.2))

theorem dictOfPairs_ne_nil (l : List (String × String)) (h : l ≠ []) :
    dictOfPairs l ≠ [] :=
  dictFold_ne_nil l [] (Or.inr h)

theorem map_fst_eq_map_snd_of_fixed (d : List (String × String))
    (h : ∀ p ∈ d, p.1 = p.2) : d.map Prod.fst = d.map Prod.snd :=
  List.map_congr_left (fun p hp => h p hp)

theorem decompGo_all_fixed (d : List (String × String)) (node : String)
    (cur : List (String × String)) (acc : List (List (String × String)))
    (hfix : ∀ p ∈ d, p.1 = p.2) (hnd : (d.map Prod.fst).Nodup)
    (hnode : node ∉ d.map Prod.fst) :
    decompGo d.length d node cur acc = (acc ++ [cur]) ++ d.map (fun p => [p]) := by
  induction d generalizing node cur acc with
  | nil => simp [decompGo]
  | cons p rest ih =>
    obtain ⟨k, v⟩ := p
    have hkv : k = v := hfix (k, v) (List.mem_cons_self _ rest)
    subst hkv
    have hlook : lookupKey node ((k, k) :: rest) = none :=
      (lookupKey_eq_none_iff node ((k, k) :: rest)).mpr hnode
    have hk : k ∉ rest.map Prod.fst := by
      rw [List.map_cons] at hnd
      exact (List.nodup_cons.mp hnd).1
    rw [List.length_cons]
    rw [show decompGo (rest.length + 1) ((k, k) :: rest) node cur acc =
        decompGo rest.length rest k [(k, k)] (acc ++ [cur]) by
      rw [decompGo, hlook]]
    rw [ih k [(k, k)] (acc ++ [cur])
      (fun q hq => hfix q (List.mem_cons_of_mem _ hq))
      ((List.nodup_cons.mp (by rw [List.map_cons] at hnd; exact hnd)).2) hk]
    simp

theorem rankRange_length (n : Nat) : (rankRange n).length = n := by
  rw [rankRange, List.length_map, List.length_range]

theorem rankSetOK_rankRange (n : Nat) : rankSetOK (rankRange n) = true := by
  unfold rankSetOK
  rw [rankRange_length, Bool.and_eq_true]
  constructor <;>
    · rw [List.all_eq_true]
      intro r hr
      exact decide_eq_true hr

/-- C2 (amended): a decomposition cycle of length `k ≥ 3` contains no
fixed points and produces exactly `k + 1` instructions — one stash,
`k - 1` plain moves, and the rewritten stashed-horse move; on names
`["A","B","C"]` with ranks `[2,3,1]` (the 3-cycle `{C→A, A→B, B→C}`) the
full output is the four capitalized lines below. -/
theorem propose_reorg_three_cycle_count :
    (∀ c : List (String × String), 3 ≤ c.length → (∀ p ∈ c, p.1 ≠ p.2) →
      (cycleMoves c).length = c.length + 1) ∧
    propose_reorg ["A", "B", "C"] [2, 3, 1] =
      .ok ["Stash C", "Move B to C", "Move A to B", "Move the stashed horse to A"] := by
  constructor
  · intro c h3 hfix
    match c with
    | p :: q :: r :: rest =>
      have hfl : ∀ l : List (String × String), (∀ x ∈ l, x.1 ≠ x.2) →
          List.filter (fun s => !decide (s.1 = s.2)) l = l := by
        intro l hl
        rw [List.filter_eq_self]
        intro a ha
        simpa using hl a ha
      have hmem1 : ∀ x ∈ ([r, q, p] : List (String × String)), x.1 ≠ x.2 := by
        intro x hx
        refine hfix x ?_
        simp only [List.mem_cons, List.not_mem_nil, or_false] at hx ⊢
        tauto
      have hmem2 : ∀ x ∈ rest, x.1 ≠ x.2 := by
        intro x hx
        refine hfix x ?_
        simp [hx]
      simp [cycleMoves]
      rw [hfl rest hmem2, hfl [r, q, p] hmem1]
      simp
  · rfl

theorem propose_reorg_three_cycle_count_witness :
    (cycleMoves [("C", "A"), ("A", "B"), ("B", "C")]).length =
      ([("C", "A"), ("A", "B"), ("B", "C")] : List (String × String)).length + 1 :=
  propose_reorg_three_cycle_count.1 [("C", "A"), ("A", "B"), ("B", "C")]
    (by decide) (by decide)

/-- C7 (amended): whenever the permutation decomposes into a single
2-cycle, the output is the `Swap` line over the cycle's two names in
lexicographic order, followed by one empty padding string; on names
`["X","Y"]` with ranks `[2,1]` the output is `["Swap X and Y", ""]`. -/
theorem propose_reorg_swap_spec :
    (∀ (names : List String) (ranks : List Int) (n1 n2 : String)
        (q : String × String),
      names.length = ranks.length → rankSetOK ranks = true →
      permutation_cycle_decomp (buildPerm names ranks) = .ok [[(n1, n2), q]] →
      propose_reorg names ranks =
        .ok [(if strLEb n1 n2 then "Swap " ++ n1 ++ " and " ++ n2
              else "Swap " ++ n2 ++ " and " ++ n1), ""]) ∧
    propose_reorg ["X", "Y"] [2, 1] = .ok ["Swap X and Y", ""] := by
  constructor
  · intro names ranks n1 n2 q hlen hok hdec
    unfold propose_reorg
    rw [if_pos hlen, if_pos hok, hdec]
    by_cases hs : strLEb n1 n2 <;> simp [cycleMoves, finalizeMoves, hs]
  · rfl

theorem propose_reorg_swap_spec_witness :
    propose_reorg ["X", "Y"] [2, 1] =
      .ok [(if strLEb "Y" "X" then "Swap " ++ "Y" ++ " and " ++ "X"
            else "Swap " ++ "X" ++ " and " ++ "Y"), ""] :=
  propose_reorg_swap_spec.1 ["X", "Y"] [2, 1] "Y" "X" ("X", "Y")
    rfl rfl rfl

/-- C8 (amended): on every valid non-empty input whose ranks are already
sorted (`ranks = [1..N]` in order, the identity permutation, all cycles
fixed points) the output is exactly the sentinel followed by one empty
padding string, `["No moves recommended", ""]`, never the empty list. -/
theorem propose_reorg_identity_spec (names : List String) (ranks : List Int)
    (hne : names ≠ []) (hranks : ranks = rankRange names.length) :
    propose_reorg names ranks = .ok ["No moves recommended", ""] := by
  have hlen : names.length = ranks.length := by
    rw [hranks, rankRange_length]
  have hok : rankSetOK ranks = true := by
    rw [hranks]
    have : names.length = (rankRange names.length).length := by rw [rankRange_length]
    exact rankSetOK_rankRange names.length
  unfold propose_reorg
  rw [if_pos hlen, if_pos hok]
  -- the zipped pairs are already sorted by rank, so the sort is the identity
  have hsnd : (names.zip ranks).map Prod.snd = ranks :=
    List.map_snd_zip names ranks (le_of_eq hlen.symm)
  have hpairC : (rankRange names.length).Pairwise (fun a b : Int => a ≤ b) := by
    rw [rankRange, List.pairwise_map]
    exact (List.pairwise_lt_range names.length).imp (fun hij => by omega)
  have hpair : (names.zip ranks).Pairwise (fun p q => p.2 ≤ q.2) := by
    have h1 : List.Pairwise (fun a b : Int => a ≤ b) ((names.zip ranks).map Prod.snd) := by
      rw [hsnd, hranks]
      exact hpairC
    exact List.pairwise_map.mp h1
  have hsort : sortByRank (names.zip ranks) = names.zip ranks :=
    sortByRank_sorted_id _ hpair
  have hfst : (names.zip ranks).map Prod.fst = names :=
    List.map_fst_zip names ranks (le_of_eq hlen)
  have hbp : buildPerm names ranks = dictOfPairs (names.map (fun x => (x, x))) := by
    rw [buildPerm, hsort, hfst, zip_self_eq_map]
  obtain ⟨hfix, hnd⟩ := dictOfPairs_fixed_nodup (names.map (fun x => (x, x)))
    (by
      intro p hp
      rcases List.mem_map.mp hp with ⟨x, _, rfl⟩
      rfl)
  have hnenil : dictOfPairs (names.map (fun x => (x, x))) ≠ [] :=
    dictOfPairs_ne_nil _ (fun h => hne (List.map_eq_nil_iff.mp h))
  obtain ⟨p0, rest0, hcons⟩ := List.exists_cons_of_ne_nil hnenil
  obtain ⟨k0, v0⟩ := p0
  have hk0v0 : k0 = v0 := hfix (k0, v0) (hcons ▸ List.mem_cons_self _ _)
  subst hk0v0
  have hfv : (dictOfPairs (names.map (fun x => (x, x)))).map Prod.fst =
      (dictOfPairs (names.map (fun x => (x, x)))).map Prod.snd :=
    map_fst_eq_map_snd_of_fixed _ hfix
  have hcheck : (((dictOfPairs (names.map (fun x => (x, x)))).map Prod.fst).all
        (fun k => decide (k ∈ (dictOfPairs (names.map (fun x => (x, x)))).map Prod.snd)) &&
      ((dictOfPairs (names.map (fun x => (x, x)))).map Prod.snd).all
        (fun k => decide (k ∈ (dictOfPairs (names.map (fun x => (x, x)))).map Prod.fst)))
      = true := by
    rw [Bool.and_eq_true]
    constructor
    · rw [List.all_eq_true]
      intro k hk
      exact decide_eq_true (hfv ▸ hk)
    · rw [List.all_eq_true]
      intro k hk
      exact decide_eq_true (hfv.symm ▸ hk)
  have hnd0 : k0 ∉ rest0.map Prod.fst := by
    rw [hcons, List.map_cons] at hnd
    exact (List.nodup_cons.mp hnd).1
  have hndrest : (rest0.map Prod.fst).Nodup := by
    rw [hcons, List.map_cons] at hnd
    exact (List.nodup_cons.mp hnd).2
  have hfixrest : ∀ p ∈ rest0, p.1 = p.2 := by
    intro p hp
    exact hfix p (hcons ▸ List.mem_cons_of_mem _ hp)
  have hdec : permutation_cycle_decomp (dictOfPairs (names.map (fun x => (x, x)))) =
      .ok ((dictOfPairs (names.map (fun x => (x, x)))).map (fun p => [p])) := by
    unfold permutation_cycle_decomp
    rw [if_pos hcheck, hcons]
    show Except.ok (decompGo ((k0, k0) :: rest0).length ((k0, k0) :: rest0) k0 [] []) =
      Except.ok (((k0, k0) :: rest0).map (fun p => [p]))
    have hstep : decompGo ((k0, k0) :: rest0).length ((k0, k0) :: rest0) k0 [] [] =
        decompGo rest0.length rest0 k0 [(k0, k0)] [] := by
      rw [List.length_cons, decompGo]
      have hl : lookupKey k0 ((k0, k0) :: rest0) = some k0 := by
        simp [lookupKey]
      rw [hl]
      have hr : removeKey k0 ((k0, k0) :: rest0) = rest0 := by
        simp [removeKey]
      rw [hr]
      simp
    rw [hstep, decompGo_all_fixed rest0 k0 [(k0, k0)] [] hfixrest hndrest hnd0]
    simp
  rw [hbp, hdec]
  have hmoves : (((dictOfPairs (names.map (fun x => (x, x)))).map
      (fun p => [p])).map cycleMoves).flatten = [] := by
    rw [List.map_map]
    rw [List.flatten_eq_nil_iff]
    intro l hl
    rcases List.mem_map.mp hl with ⟨p, _, rfl⟩
    rfl
  show Except.ok (finalizeMoves ((((dictOfPairs (names.map (fun x => (x, x)))).map
      (fun p => [p])).map cycleMoves).flatten)) =
    Except.ok ["No moves recommended", ""]
  rw [hmoves]
  rfl

theorem propose_reorg_identity_spec_witness :
    propose_reorg ["A", "B"] [1, 2] = .ok ["No moves recommended", ""] :=
  propose_reorg_identity_spec ["A", "B"] [1, 2] (by decide) (by decide)

/-! ### Helper lemmas for the Pareto theorem -/

theorem mem_ddGo (b : List ℚ) (l : List (List ℚ)) :
    ∀ seen : List (List ℚ), (b ∈ ddGo l seen ↔ b ∈ l ∧ b ∉ seen) := by
  induction l with
  | nil => intro seen; simp [ddGo]
  | cons a rest ih =>
    intro seen
    by_cases ha : a ∈ seen
    · rw [ddGo, if_pos ha, ih seen]
      constructor
      · rintro ⟨hb, hbs⟩
        exact ⟨List.mem_cons_of_mem a hb, hbs⟩
      · rintro ⟨hb, hbs⟩
        rcases List.mem_cons.mp hb with rfl | hb
        · exact absurd ha hbs
        · exact ⟨hb, hbs⟩
    · rw [ddGo, if_neg ha]
      rw [List.mem_cons, ih (a :: seen)]
      constructor
      · rintro (rfl | ⟨hb, hbs⟩)
        · exact ⟨List.mem_cons_self b rest, ha⟩
        · refine ⟨List.mem_cons_of_mem a hb, fun hs => hbs (List.mem_cons_of_mem a hs)⟩
      · rintro ⟨hb, hbs⟩
        rcases List.mem_cons.mp hb with rfl | hb
        · exact Or.inl rfl
        · by_cases hba : b = a
          · exact Or.inl hba
          · exact Or.inr ⟨hb, fun hs => by
              rcases List.mem_cons.mp hs with h | h
              · exact hba h
              · exact hbs h⟩

theorem ddGo_nodup (l : List (List ℚ)) :
    ∀ seen : List (List ℚ), (ddGo l seen).Nodup := by
  induction l with
  | nil => intro seen; simp [ddGo]
  | cons a rest ih =>
    intro seen
    by_cases ha : a ∈ seen
    · rw [ddGo, if_pos ha]
      exact ih seen
    · rw [ddGo, if_neg ha]
      rw [List.nodup_cons]
      refine ⟨fun hmem => ?_, ih (a :: seen)⟩
      exact ((mem_ddGo a rest (a :: seen)).mp hmem).2 (List.mem_cons_self a seen)

theorem mem_drop_duplicates (b : List ℚ) (l : List (List ℚ)) :
    b ∈ drop_duplicates l ↔ b ∈ l := by
  rw [drop_duplicates, mem_ddGo]
  simp

theorem drop_duplicates_nodup (l : List (List ℚ)) : (drop_duplicates l).Nodup :=
  ddGo_nodup l []

theorem leAll_refl (v : List ℚ) : leAll v v = true := by
  induction v with
  | nil => rfl
  | cons a rest ih =>
    rw [leAll, List.zip_cons_cons, List.all_cons]
    rw [leAll] at ih
    simp [ih]

theorem countP_split {α : Type} (p q : α → Bool) (l : List α) :
    l.countP p = l.countP (fun x => p x && q x) + l.countP (fun x => p x && !q x) := by
  induction l with
  | nil => simp
  | cons a rest ih =>
    cases hp : p a <;> cases hq : q a <;>
      simp [List.countP_cons, hp, hq, ih] <;> omega

theorem countP_decide_eq_one {α : Type} [DecidableEq α] (l : List α) (v : α)
    (hnd : l.Nodup) (hv : v ∈ l) : l.countP (fun x => decide (x = v)) = 1 := by
  induction l with
  | nil => simp at hv
  | cons a rest ih =>
    rw [List.nodup_cons] at hnd
    rcases List.mem_cons.mp hv with rfl | hv'
    · have h0 : rest.countP (fun x => decide (x = v)) = 0 := by
        rw [List.countP_eq_zero]
        intro b hb
        simp only [decide_eq_true_eq]
        intro hbv
        subst hbv
        exact hnd.1 hb
      rw [List.countP_cons]
      simp [h0]
    · have ha : (decide (a = v) : Bool) = false := by
        simp only [decide_eq_false_iff_not]
        intro hav
        subst hav
        exact hnd.1 hv'
      rw [List.countP_cons]
      simp [ih hnd.2 hv', ha]

theorem flag_getD (rows : List (List ℚ)) (i : Nat) (h : i < rows.length) :
    (flag_pareto_optimal rows).getD i true =
      _check_pareto_optimal (rows.getD i []) (drop_duplicates rows) := by
  rw [flag_pareto_optimal, List.getD_eq_getElem?_getD, List.getElem?_map,
    List.getElem?_eq_getElem h]
  rw [List.getD_eq_getElem?_getD, List.getElem?_eq_getElem h]
  rfl

/-- C3: a row's flag is `false` exactly when some distinct row value
present in the population weakly dominates it componentwise, and rows with
identical values always receive identical flags (the shared value is
tested once against the deduplicated frame). -/
theorem flag_pareto_optimal_dominance_iff (rows : List (List ℚ)) :
    (flag_pareto_optimal rows).length = rows.length ∧
    (∀ i, i < rows.length →
      ((flag_pareto_optimal rows).getD i true = false ↔
        ∃ w ∈ rows, w ≠ rows.getD i [] ∧ leAll (rows.getD i []) w = true)) ∧
    (∀ i j, i < rows.length → j < rows.length →
      rows.getD i [] = rows.getD j [] →
      (flag_pareto_optimal rows).getD i true = (flag_pareto_optimal rows).getD j true) := by
  refine ⟨by simp [flag_pareto_optimal], ?_, ?_⟩
  · intro i hi
    rw [flag_getD rows i hi]
    have hvmem : rows.getD i [] ∈ rows := by
      rw [List.getD_eq_getElem?_getD, List.getElem?_eq_getElem hi]
      exact List.getElem_mem hi
    have hvdd : rows.getD i [] ∈ drop_duplicates rows :=
      (mem_drop_duplicates _ rows).mpr hvmem
    have hnd := drop_duplicates_nodup rows
    have hsplit := countP_split (fun w => leAll (rows.getD i []) w)
      (fun w => decide (w = rows.getD i [])) (drop_duplicates rows)
    have heq1 : (drop_duplicates rows).countP
          (fun w => leAll (rows.getD i []) w && decide (w = rows.getD i [])) =
        (drop_duplicates rows).countP (fun w => decide (w = rows.getD i [])) := by
      apply List.countP_congr
      intro w _
      by_cases hwv : w = rows.getD i []
      · subst hwv
        rw [leAll_refl, Bool.true_and]
      · have hb : (decide (w = rows.getD i []) : Bool) = false :=
          decide_eq_false hwv
        rw [hb, Bool.and_false]
    have hcount1 : (drop_duplicates rows).countP
        (fun w => decide (w = rows.getD i [])) = 1 :=
      countP_decide_eq_one (drop_duplicates rows) (rows.getD i []) hnd hvdd
    unfold _check_pareto_optimal
    rw [hsplit, heq1, hcount1]
    rw [beq_eq_false_iff_ne]
    constructor
    · intro h
      have hc : 0 < (drop_duplicates rows).countP
          (fun w => leAll (rows.getD i []) w && !decide (w = rows.getD i [])) := by
        omega
      rcases List.countP_pos.mp hc with ⟨w, hw, hpw⟩
      rw [Bool.and_eq_true, Bool.not_eq_true', decide_eq_false_iff_not] at hpw
      exact ⟨w, (mem_drop_duplicates w rows).mp hw, hpw.2, hpw.1⟩
    · rintro ⟨w, hwmem, hwne, hwle⟩
      have hwdd : w ∈ drop_duplicates rows := (mem_drop_duplicates w rows).mpr hwmem
      have hc : 0 < (drop_duplicates rows).countP
          (fun w => leAll (rows.getD i []) w && !decide (w = rows.getD i [])) :=
        List.countP_pos.mpr ⟨w, hwdd, by
          rw [Bool.and_eq_true, Bool.not_eq_true', decide_eq_false_iff_not]
          exact ⟨hwle, hwne⟩⟩
      omega
  · intro i j hi hj hij
    rw [flag_getD rows i hi, flag_getD rows j hj, hij]

theorem flag_pareto_optimal_dominance_iff_witness :
    (flag_pareto_optimal [[(1 : ℚ)], [2]]).getD 0 true = false ↔
      ∃ w ∈ [[(1 : ℚ)], [2]], w ≠ ([[(1 : ℚ)], [2]] : List (List ℚ)).getD 0 [] ∧
        leAll (([[(1 : ℚ)], [2]] : List (List ℚ)).getD 0 []) w = true :=
  (flag_pareto_optimal_dominance_iff [[(1 : ℚ)], [2]]).2.1 0 (by decide)

/-! ### Helper lemmas for the merge theorem -/

theorem mergeInstrAux_length (names : List String) (pairs : List (Nat × Nat)) :
    ∀ (rows : List (String × Bool × Bool)) (s : Nat),
      (mergeInstrAux names pairs s rows).length = rows.length := by
  intro rows
  induction rows with
  | nil => intro s; rfl
  | cons row rest ih =>
    intro s
    rw [mergeInstrAux, List.length_cons, List.length_cons, ih (s + 1)]

theorem mergeInstrAux_getD (names : List String) (pairs : List (Nat × Nat)) :
    ∀ (rows : List (String × Bool × Bool)) (s i : Nat), i < rows.length →
      (mergeInstrAux names pairs s rows).getD i "" =
        mergeRowInstr names pairs (s + i) (rows.getD i ("", false, false)) := by
  intro rows
  induction rows with
  | nil =>
    intro s i hi
    simp at hi
  | cons row rest ih =>
    intro s i hi
    cases i with
    | zero => rfl
    | succ i' =>
      rw [mergeInstrAux]
      have h1 : (mergeRowInstr names pairs s row :: mergeInstrAux names pairs (s + 1) rest).getD
          (i' + 1) "" = (mergeInstrAux names pairs (s + 1) rest).getD i' "" := rfl
      have h2 : ((row :: rest).getD (i' + 1) ("", false, false)) =
          rest.getD i' ("", false, false) := rfl
      rw [h1, h2, ih (s + 1) i' (by simpa using hi)]
      congr 1
      omega

theorem zip3_getD (names : List String) (keeps mains : List Bool)
    (hk : names.length = keeps.length) (hm : names.length = mains.length)
    (i : Nat) (hi : i < names.length) :
    (names.zip (keeps.zip mains)).getD i ("", false, false) =
      (names.getD i "", keeps.getD i false, mains.getD i false) := by
  have hik : i < keeps.length := hk ▸ hi
  have him : i < mains.length := hm ▸ hi
  have hz : i < (names.zip (keeps.zip mains)).length := by
    rw [List.length_zip, List.length_zip]
    omega
  rw [List.getD_eq_getElem?_getD, List.getElem?_eq_getElem hz,
    List.getD_eq_getElem?_getD, List.getElem?_eq_getElem hi,
    List.getD_eq_getElem?_getD, List.getElem?_eq_getElem hik,
    List.getD_eq_getElem?_getD, List.getElem?_eq_getElem him]
  rw [List.getElem_zip, List.getElem_zip]
  rfl

theorem mem_typeIdxsAux (t : IType) :
    ∀ (rows : List (Bool × Bool)) (s i : Nat),
      i ∈ typeIdxsAux t s rows ↔
        ∃ k, k < rows.length ∧ i = s + k ∧
          classify (rows.getD k (false, false)).2 (rows.getD k (false, false)).1 = t := by
  intro rows
  induction rows with
  | nil =>
    intro s i
    simp [typeIdxsAux]
  | cons r rest ih =>
    intro s i
    obtain ⟨k0, m0⟩ := r
    by_cases hr : classify m0 k0 = t
    · rw [typeIdxsAux, if_pos hr, List.mem_cons, ih (s + 1) i]
      constructor
      · rintro (rfl | ⟨k, hk, rfl, hcl⟩)
        · exact ⟨0, by simp, by omega, by simpa using hr⟩
        · exact ⟨k + 1, by simpa using hk, by omega, by simpa using hcl⟩
      · rintro ⟨k, hk, rfl, hcl⟩
        cases k with
        | zero => exact Or.inl (by omega)
        | succ k' =>
          refine Or.inr ⟨k', by simpa using hk, by omega, by simpa using hcl⟩
    · rw [typeIdxsAux, if_neg hr, ih (s + 1) i]
      constructor
      · rintro ⟨k, hk, rfl, hcl⟩
        exact ⟨k + 1, by simpa using hk, by omega, by simpa using hcl⟩
      · rintro ⟨k, hk, rfl, hcl⟩
        cases k with
        | zero => exact absurd (by simpa using hcl) hr
        | succ k' =>
          exact ⟨k', by simpa using hk, by omega, by simpa using hcl⟩

theorem typeIdxsAux_ge (t : IType) :
    ∀ (rows : List (Bool × Bool)) (s : Nat), ∀ i ∈ typeIdxsAux t s rows, s ≤ i := by
  intro rows
  induction rows with
  | nil => intro s i hi; simp [typeIdxsAux] at hi
  | cons r rest ih =>
    intro s i hi
    obtain ⟨k0, m0⟩ := r
    by_cases hr : classify m0 k0 = t
    · rw [typeIdxsAux, if_pos hr, List.mem_cons] at hi
      rcases hi with rfl | hi
      · exact le_refl i
      · exact le_trans (Nat.le_succ s) (ih (s + 1) i hi)
    · rw [typeIdxsAux, if_neg hr] at hi
      exact le_trans (Nat.le_succ s) (ih (s + 1) i hi)

theorem typeIdxsAux_nodup (t : IType) :
    ∀ (rows : List (Bool × Bool)) (s : Nat), (typeIdxsAux t s rows).Nodup := by
  intro rows
  induction rows with
  | nil => intro s; simp [typeIdxsAux]
  | cons r rest ih =>
    intro s
    obtain ⟨k0, m0⟩ := r
    by_cases hr : classify m0 k0 = t
    · rw [typeIdxsAux, if_pos hr, List.nodup_cons]
      refine ⟨fun hmem => ?_, ih (s + 1)⟩
      have := typeIdxsAux_ge t rest (s + 1) s hmem
      omega
    · rw [typeIdxsAux, if_neg hr]
      exact ih (s + 1)

theorem lookupNat_eq_some (i j : Nat) :
    ∀ pairs : List (Nat × Nat), (pairs.map Prod.fst).Nodup → (i, j) ∈ pairs →
      lookupNat i pairs = some j := by
  intro pairs
  induction pairs with
  | nil => intro _ h; simp at h
  | cons p rest ih =>
    intro hnd hmem
    obtain ⟨a, b⟩ := p
    rw [List.map_cons, List.nodup_cons] at hnd
    rcases List.mem_cons.mp hmem with heq | hmem'
    · obtain ⟨rfl, rfl⟩ := Prod.mk.injEq .. ▸ heq
      simp [lookupNat, List.find?]
    · by_cases hai : a = i
      · subst hai
        exact absurd (List.mem_map.mpr ⟨(a, j), hmem', rfl⟩) hnd.1
      · have : lookupNat i rest = some j := ih hnd.2 hmem'
        rw [lookupNat] at this ⊢
        rw [List.find?_cons]
        have hb : ((a, b).1 == i) = false := by
          simp [hai]
        rw [hb]
        exact this

theorem typeIdxsAux_length_eq_countP (t : IType) :
    ∀ (rows : List (Bool × Bool)) (s : Nat),
      (typeIdxsAux t s rows).length =
        rows.countP (fun r => decide (classify r.2 r.1 = t)) := by
  intro rows
  induction rows with
  | nil => intro s; rfl
  | cons r rest ih =>
    intro s
    obtain ⟨k0, m0⟩ := r
    by_cases hr : classify m0 k0 = t
    · rw [typeIdxsAux, if_pos hr, List.length_cons, ih (s + 1), List.countP_cons]
      simp [hr]
    · rw [typeIdxsAux, if_neg hr, ih (s + 1), List.countP_cons]
      simp [hr]

theorem merge_count_identity :
    ∀ (keeps mains : List Bool), keeps.length = mains.length →
      (keeps.zip mains).countP (fun r => decide (classify r.2 r.1 = IType.move)) +
          countTrue mains =
        (keeps.zip mains).countP
            (fun r => decide (classify r.2 r.1 = IType.kill_primary)) +
          countTrue keeps := by
  intro keeps
  induction keeps with
  | nil =>
    intro mains h
    have : mains = [] := List.length_eq_zero.mp h.symm
    subst this
    rfl
  | cons k rest ih =>
    intro mains h
    cases mains with
    | nil => simp at h
    | cons m mrest =>
      have h' : rest.length = mrest.length := by simpa using h
      have := ih mrest h'
      rw [List.zip_cons_cons, List.countP_cons, List.countP_cons]
      rw [countTrue, countTrue, List.countP_cons, List.countP_cons]
      rw [countTrue, countTrue] at this
      cases k <;> cases m <;> simp [classify] at this ⊢ <;> omega

theorem move_length_le_killp (keeps mains : List Bool)
    (h : keeps.length = mains.length)
    (hcap : countTrue keeps ≤ countTrue mains) :
    (typeIdxs IType.move keeps mains).length ≤
      (typeIdxs IType.kill_primary keeps mains).length := by
  rw [typeIdxs, typeIdxs, typeIdxsAux_length_eq_countP, typeIdxsAux_length_eq_countP]
  have := merge_count_identity keeps mains h
  omega

/-- C4 (amended): under the length and capacity preconditions the merge
plan contains exactly one instruction per input entity, in input order;
entity `i` gets `"<name>: keep"` when `(main,keep) = (true,true)`,
`"<name>: kill"` when classified kill_primary — including a kill_primary
entity chosen as a move target — or kill_secondary, and
`"<name>: move to <target>"` when classified move, where the move rows are
paired one-to-one, in order, with the kill_primary rows (the capacity
precondition providing enough kill_primary slots). -/
theorem propose_merge_instructions_spec (names : List String) (keeps mains : List Bool)
    (hk : names.length = keeps.length) (hm : names.length = mains.length)
    (hcap : countTrue keeps ≤ countTrue mains) :
    propose_merge names keeps mains = .ok (mergeInstructions names keeps mains) ∧
    (mergeInstructions names keeps mains).length = names.length ∧
    (typeIdxs IType.move keeps mains).length ≤
      (typeIdxs IType.kill_primary keeps mains).length ∧
    (∀ i, i < names.length →
      (classify (mains.getD i false) (keeps.getD i false) = IType.keep →
        (mergeInstructions names keeps mains).getD i "" =
          names.getD i "" ++ ": keep") ∧
      (classify (mains.getD i false) (keeps.getD i false) = IType.kill_primary ∨
          classify (mains.getD i false) (keeps.getD i false) = IType.kill_secondary →
        (mergeInstructions names keeps mains).getD i "" =
          names.getD i "" ++ ": kill")) ∧
    (∀ i j : Nat,
      (i, j) ∈ (typeIdxs IType.move keeps mains).zip
        ((typeIdxs IType.kill_primary keeps mains).take
          (typeIdxs IType.move keeps mains).length) →
      (mergeInstructions names keeps mains).getD i "" =
        names.getD i "" ++ ": move to " ++ names.getD j "") := by
  have hkm : keeps.length = mains.length := by omega
  have hrows : (names.zip (keeps.zip mains)).length = names.length := by
    rw [List.length_zip, List.length_zip]
    omega
  have hzl : (keeps.zip mains).length = names.length := by
    rw [List.length_zip]
    omega
  have hmle := move_length_le_killp keeps mains hkm hcap
  have hgetD : ∀ i, i < names.length →
      (mergeInstructions names keeps mains).getD i "" =
        mergeRowInstr names
          ((typeIdxs IType.move keeps mains).zip
            ((typeIdxs IType.kill_primary keeps mains).take
              (typeIdxs IType.move keeps mains).length)) i
          (names.getD i "", keeps.getD i false, mains.getD i false) := by
    intro i hi
    rw [mergeInstructions]
    rw [mergeInstrAux_getD names _ (names.zip (keeps.zip mains)) 0 i (hrows ▸ hi)]
    rw [zip3_getD names keeps mains hk hm i hi]
    congr 1
    omega
  refine ⟨?_, ?_, hmle, ?_, ?_⟩
  · unfold propose_merge
    rw [if_pos hk, if_pos hm, if_pos hcap]
  · rw [mergeInstructions, mergeInstrAux_length, hrows]
  · intro i hi
    constructor
    · intro hcls
      rw [hgetD i hi]
      simp only [mergeRowInstr, hcls]
    · intro hcls
      rw [hgetD i hi]
      rcases hcls with hcls | hcls <;> simp only [mergeRowInstr, hcls]
  · intro i j hij
    have hmemi : i ∈ typeIdxs IType.move keeps mains := (List.mem_zip hij).1
    rcases (mem_typeIdxsAux IType.move (keeps.zip mains) 0 i).mp hmemi with
      ⟨k, hklen, hik, hcls⟩
    have hik0 : i = k := by omega
    subst hik0
    have hi : i < names.length := hzl ▸ hklen
    -- the zipped row at i is the pair of flag values
    have hrowi : (keeps.zip mains).getD i (false, false) =
        (keeps.getD i false, mains.getD i false) := by
      have hik : i < keeps.length := by omega
      have him : i < mains.length := by omega
      rw [List.getD_eq_getElem?_getD, List.getElem?_eq_getElem (hzl ▸ hi),
        List.getD_eq_getElem?_getD, List.getElem?_eq_getElem hik,
        List.getD_eq_getElem?_getD, List.getElem?_eq_getElem him]
      rw [List.getElem_zip]
      rfl
    rw [hrowi] at hcls
    have htake : ((typeIdxs IType.kill_primary keeps mains).take
        (typeIdxs IType.move keeps mains).length).length =
        (typeIdxs IType.move keeps mains).length := by
      rw [List.length_take]
      omega
    have hfst : ((typeIdxs IType.move keeps mains).zip
        ((typeIdxs IType.kill_primary keeps mains).take
          (typeIdxs IType.move keeps mains).length)).map Prod.fst =
        typeIdxs IType.move keeps mains :=
      List.map_fst_zip _ _ (le_of_eq htake.symm)
    have hnd : (((typeIdxs IType.move keeps mains).zip
        ((typeIdxs IType.kill_primary keeps mains).take
          (typeIdxs IType.move keeps mains).length)).map Prod.fst).Nodup := by
      rw [hfst]
      exact typeIdxsAux_nodup IType.move (keeps.zip mains) 0
    have hlook := lookupNat_eq_some i j _ hnd hij
    rw [hgetD i hi]
    simp only [mergeRowInstr, hcls, hlook]

theorem propose_merge_instructions_spec_witness :
    (mergeInstructions ["A", "B", "C"] [true, false, true] [true, true, false]).getD 2 ""
      = (["A", "B", "C"] : List String).getD 2 "" ++ ": move to " ++
        (["A", "B", "C"] : List String).getD 1 "" :=
  (propose_merge_instructions_spec ["A", "B", "C"] [true, false, true] [true, true, false]
    rfl rfl (by decide)).2.2.2.2 2 1 (by decide)

/-! ### Helper lemmas for the centrality theorems -/

theorem list_sq_sum_nonneg (l : List ℝ) : 0 ≤ (l.map (fun t => t * t)).sum := by
  induction l with
  | nil => simp
  | cons a rest ih =>
    rw [List.map_cons, List.sum_cons]
    have := mul_self_nonneg a
    linarith

theorem list_cauchy (l : List ℝ) :
    l.sum ^ 2 ≤ (l.length : ℝ) * (l.map (fun t => t * t)).sum := by
  induction l with
  | nil => simp
  | cons a rest ih =>
    rw [List.sum_cons, List.map_cons, List.sum_cons, List.length_cons]
    have hq : 0 ≤ (rest.map (fun t => t * t)).sum := list_sq_sum_nonneg rest
    have hn : (0 : ℝ) ≤ (rest.length : ℝ) := Nat.cast_nonneg rest.length
    push_cast
    rcases eq_or_lt_of_le hn with hk0 | hkpos
    · have hs2 : rest.sum ^ 2 ≤ 0 := by
        rw [← hk0] at ih
        linarith [ih]
      have hs : rest.sum = 0 := by
        have := sq_nonneg rest.sum
        nlinarith
      rw [hs, ← hk0]
      ring_nf
      nlinarith [hq]
    · nlinarith [sq_nonneg ((rest.length : ℝ) * a - rest.sum), ih, hq,
        mul_pos hkpos hkpos,
        mul_nonneg (le_of_lt hkpos) (sub_nonneg.mpr ih)]

theorem cast_list_sum (x : List ℚ) :
    ((x.sum : ℚ) : ℝ) = (castR x).sum := by
  rw [castR]
  push_cast
  rfl

theorem cast_normSq (x : List ℚ) :
    ((normSq x : ℚ) : ℝ) = ((castR x).map (fun t => t * t)).sum := by
  rw [normSq, cast_list_sum (x.map (fun t => t * t))]
  rw [castR, castR, List.map_map, List.map_map]
  refine congrArg List.sum ?_
  refine List.map_congr_left (fun t _ => ?_)
  show ((t * t : ℚ) : ℝ) = (t : ℝ) * (t : ℝ)
  push_cast
  rfl

theorem zip_replicate_const (l : List ℝ) (c : ℝ) :
    l.zip (List.replicate l.length c) = l.map (fun t => (t, c)) := by
  induction l with
  | nil => rfl
  | cons a rest ih =>
    rw [List.length_cons, List.replicate_succ, List.zip_cons_cons, List.map_cons, ih]

theorem normL_replicate (n : Nat) :
    normL (List.replicate n (1 : ℝ)) = Real.sqrt n := by
  rw [normL]
  congr 1
  have hmap : (List.replicate n (1 : ℝ)).map (fun t => t * t) =
      List.replicate n (1 : ℝ) := by
    rw [List.map_replicate]
    norm_num
  rw [hmap, List.sum_replicate, nsmul_eq_mul, mul_one]

theorem sum_map_mul_const (l : List ℝ) (c : ℝ) :
    (l.map (fun t => t * c)).sum = l.sum * c := by
  induction l with
  | nil => simp
  | cons a rest ih =>
    rw [List.map_cons, List.sum_cons, List.sum_cons, ih]
    ring

theorem sum_map_div_const (l : List ℝ) (c : ℝ) :
    (l.map (fun t => t / c)).sum = l.sum / c := by
  induction l with
  | nil => simp
  | cons a rest ih =>
    rw [List.map_cons, List.sum_cons, List.sum_cons, ih]
    ring

theorem dotL_const_right (A : List ℝ) (c : ℝ) :
    dotL A (List.replicate A.length c) = A.sum * c := by
  rw [dotL, zip_replicate_const, List.map_map]
  exact sum_map_mul_const A c

/-- Closed form of the source's cosine similarity: the sum of the entries
divided by the product of the two norms. -/
theorem compute_centrality_eq (x : List ℚ) :
    compute_centrality x =
      (castR x).sum / (normL (castR x) * Real.sqrt (x.length : ℝ)) := by
  show dotL ((castR x).map (fun t => t / normL (castR x)))
    ((List.replicate x.length (1 : ℝ)).map
      (fun t => t / normL (List.replicate x.length (1 : ℝ)))) = _
  rw [normL_replicate, List.map_replicate]
  have hlen : x.length = ((castR x).map (fun t => t / normL (castR x))).length := by
    rw [List.length_map, castR, List.length_map]
  rw [hlen, dotL_const_right, sum_map_div_const]
  rw [div_mul_div_comm, mul_one]

theorem normSq_facts (x : List ℚ) (hx : 0 < normSq x) :
    0 < ((castR x).map (fun t => t * t)).sum ∧ (0 : ℝ) < (x.length : ℝ) ∧
    0 < normL (castR x) * Real.sqrt (x.length : ℝ) ∧
    (normL (castR x) * Real.sqrt (x.length : ℝ)) ^ 2 =
      (x.length : ℝ) * ((castR x).map (fun t => t * t)).sum := by
  have hQ : (0 : ℝ) < ((castR x).map (fun t => t * t)).sum := by
    rw [← cast_normSq]
    exact_mod_cast hx
  have hxne : x ≠ [] := by
    intro h
    subst h
    simp [normSq] at hx
  have hnpos : (0 : ℝ) < (x.length : ℝ) := by
    have : 0 < x.length := List.length_pos.mpr hxne
    exact_mod_cast this
  have ha : 0 < normL (castR x) := by
    rw [normL]
    exact Real.sqrt_pos.mpr hQ
  have hb : 0 < Real.sqrt (x.length : ℝ) := Real.sqrt_pos.mpr hnpos
  refine ⟨hQ, hnpos, mul_pos ha hb, ?_⟩
  rw [mul_pow, normL, Real.sq_sqrt (le_of_lt hQ), Real.sq_sqrt (le_of_lt hnpos)]
  ring

/-- C6 (the valid half of the claim): on every non-zero vector the
centrality is the cosine similarity with the all-ones direction and lies
in `[-1, 1]`.  (The DomainError half of the claim fails on the code: see
the C6 entry — `compute_centrality` performs no zero check and numpy
silently produces NaN.) -/
theorem compute_centrality_bounds (x : List ℚ) (hx : 0 < normSq x) :
    -1 ≤ compute_centrality x ∧ compute_centrality x ≤ 1 := by
  rw [compute_centrality_eq]
  obtain ⟨hQ, hnpos, hD, hD2⟩ := normSq_facts x hx
  have hcs : (castR x).sum ^ 2 ≤
      (x.length : ℝ) * ((castR x).map (fun t => t * t)).sum := by
    have h1 := list_cauchy (castR x)
    have h2 : (castR x).length = x.length := by rw [castR, List.length_map]
    rw [h2] at h1
    exact h1
  have hSD : (castR x).sum ≤ normL (castR x) * Real.sqrt (x.length : ℝ) ∧
      -(normL (castR x) * Real.sqrt (x.length : ℝ)) ≤ (castR x).sum := by
    constructor <;> nlinarith [hcs, hD2, hD]
  constructor
  · rw [le_div_iff hD]
    linarith [hSD.2]
  · rw [div_le_one hD]
    exact hSD.1

theorem compute_centrality_bounds_witness :
    0 < normSq [(1 : ℚ)] ∧
      (-1 ≤ compute_centrality [(1 : ℚ)] ∧ compute_centrality [(1 : ℚ)] ≤ 1) :=
  ⟨by norm_num [normSq], compute_centrality_bounds [(1 : ℚ)] (by norm_num [normSq])⟩

theorem sgnSq_strictMono : StrictMono sgnSq := by
  intro a b hab
  rw [sgnSq, sgnSq]
  by_cases ha : a < 0 <;> by_cases hb : b < 0
  · rw [if_pos ha, if_pos hb]
    nlinarith
  · rw [if_pos ha, if_neg hb]
    push_neg at hb
    nlinarith
  · push_neg at ha
    linarith
  · rw [if_neg ha, if_neg hb]
    push_neg at ha
    nlinarith

/-- Justification of the ranking key's centrality component: on non-zero
vectors `centralityKey` is exactly the image of the source's cosine
similarity under the strictly monotone map `sgnSq`, so the rational key
orders entities exactly as the real cosine similarity does. -/
theorem centralityKey_eq_sgnSq_centrality (x : List ℚ) (hx : 0 < normSq x) :
    ((centralityKey x : ℚ) : ℝ) = sgnSq (compute_centrality x) := by
  rw [compute_centrality_eq]
  obtain ⟨hQ, hnpos, hD, hD2⟩ := normSq_facts x hx
  show (((if x.sum < 0 then -(x.sum ^ 2 / (normSq x * (x.length : ℚ)))
      else x.sum ^ 2 / (normSq x * (x.length : ℚ))) : ℚ) : ℝ) = _
  rw [sgnSq]
  have hsign : ((castR x).sum / (normL (castR x) * Real.sqrt (x.length : ℝ)) < 0) ↔
      (castR x).sum < 0 := by
    constructor
    · intro h
      by_contra hS
      push_neg at hS
      exact absurd h (not_lt.mpr (div_nonneg hS (le_of_lt hD)))
    · intro h
      exact div_neg_of_neg_of_pos h hD
  have hsq : ((castR x).sum / (normL (castR x) * Real.sqrt (x.length : ℝ))) ^ 2 =
      (castR x).sum ^ 2 / ((x.length : ℝ) * ((castR x).map (fun t => t * t)).sum) := by
    rw [div_pow, hD2]
  have hcastden : ((normSq x * (x.length : ℚ) : ℚ) : ℝ) =
      (x.length : ℝ) * ((castR x).map (fun t => t * t)).sum := by
    push_cast
    rw [cast_normSq]
    ring
  by_cases hs : x.sum < 0
  · have hS : (castR x).sum < 0 := by
      rw [← cast_list_sum]
      exact_mod_cast hs
    rw [if_pos hs, if_pos (hsign.mpr hS), hsq]
    push_cast
    rw [cast_normSq]
    have hcs2 : (List.map Rat.cast x).sum = ((x.sum : ℚ) : ℝ) := (cast_list_sum x).symm
    rw [hcs2, ← cast_list_sum]
    ring
  · have hS : ¬((castR x).sum < 0) := by
      rw [← cast_list_sum]
      intro h
      exact hs (by exact_mod_cast h)
    rw [if_neg hs, if_neg (fun h => hS (hsign.mp h)), hsq]
    push_cast
    rw [cast_normSq]
    have hcs2 : (List.map Rat.cast x).sum = ((x.sum : ℚ) : ℝ) := (cast_list_sum x).symm
    rw [hcs2, ← cast_list_sum]
    ring

/-- Comparing `centralityKey` values is exactly comparing the source's
cosine similarities, for non-zero vectors. -/
theorem centralityKey_le_iff (x y : List ℚ) (hx : 0 < normSq x) (hy : 0 < normSq y) :
    centralityKey x ≤ centralityKey y ↔
      compute_centrality x ≤ compute_centrality y := by
  rw [← sgnSq_strictMono.le_iff_le, ← centralityKey_eq_sgnSq_centrality x hx,
    ← centralityKey_eq_sgnSq_centrality y hy, Rat.cast_le]

/-! ### The ranking-key comparison is a strict linear order -/

theorem IsStrictLinear.asymm {α : Type} {lt : α → α → Bool}
    (H : IsStrictLinear lt) (a b : α) (h : lt a b = true) : lt b a = false := by
  cases hba : lt b a with
  | false => rfl
  | true =>
    have := H.trans a b a h hba
    rw [H.irrefl a] at this
    exact absurd this (by simp)

theorem isl_ratLTb : IsStrictLinear ratLTb := by
  refine ⟨?_, ?_, ?_⟩
  · intro a
    simp [ratLTb]
  · intro a b c hab hbc
    rw [ratLTb, decide_eq_true_eq] at hab hbc ⊢
    exact lt_trans hab hbc
  · intro a b hne
    rcases lt_or_gt_of_ne hne with h | h
    · exact Or.inl (by rw [ratLTb, decide_eq_true_eq]; exact h)
    · exact Or.inr (by rw [ratLTb, decide_eq_true_eq]; exact h)

theorem isl_boolLTb : IsStrictLinear boolLTb := by
  refine ⟨?_, ?_, ?_⟩
  · decide
  · decide
  · decide

theorem isl_listLTb : IsStrictLinear listLTb := by
  refine ⟨?_, ?_, ?_⟩
  · intro a
    induction a with
    | nil => rfl
    | cons x xs ih =>
      rw [listLTb, if_neg (lt_irrefl x), if_neg (lt_irrefl x)]
      exact ih
  · intro a
    induction a with
    | nil =>
      intro b c hab hbc
      cases b with
      | nil => simp [listLTb] at hab
      | cons y ys =>
        cases c with
        | nil => simp [listLTb] at hbc
        | cons z zs => rfl
    | cons x xs ih =>
      intro b c hab hbc
      cases b with
      | nil => simp [listLTb] at hab
      | cons y ys =>
        cases c with
        | nil => simp [listLTb] at hbc
        | cons z zs =>
          rw [listLTb] at hab hbc ⊢
          rcases lt_trichotomy x y with hxy | hxy | hxy
          · rcases lt_trichotomy y z with hyz | hyz | hyz
            · rw [if_pos (lt_trans hxy hyz)]
            · subst hyz
              rw [if_pos hxy]
            · rw [if_neg (lt_asymm hyz), if_pos hyz] at hbc
              exact absurd hbc (by simp)
          · subst hxy
            rw [if_neg (lt_irrefl x), if_neg (lt_irrefl x)] at hab
            by_cases hxz : x < z
            · rw [if_pos hxz]
            · by_cases hzx : z < x
              · rw [if_neg hxz, if_pos hzx] at hbc
                exact absurd hbc (by simp)
              · have hxz' : x = z := le_antisymm (not_lt.mp hzx) (not_lt.mp hxz)
                subst hxz'
                rw [if_neg (lt_irrefl x), if_neg (lt_irrefl x)] at hbc ⊢
                exact ih ys zs hab hbc
          · rw [if_neg (lt_asymm hxy), if_pos hxy] at hab
            exact absurd hab (by simp)
  · intro a
    induction a with
    | nil =>
      intro b hne
      cases b with
      | nil => exact absurd rfl hne
      | cons y ys => exact Or.inl rfl
    | cons x xs ih =>
      intro b hne
      cases b with
      | nil => exact Or.inr rfl
      | cons y ys =>
        rcases lt_trichotomy x y with hxy | hxy | hxy
        · refine Or.inl ?_
          rw [listLTb, if_pos hxy]
        · subst hxy
          have hne' : xs ≠ ys := by
            intro h
            exact hne (by rw [h])
          rcases ih ys hne' with h | h
          · refine Or.inl ?_
            rw [listLTb, if_neg (lt_irrefl x), if_neg (lt_irrefl x)]
            exact h
          · refine Or.inr ?_
            rw [listLTb, if_neg (lt_irrefl x), if_neg (lt_irrefl x)]
            exact h
        · refine Or.inr ?_
          rw [listLTb, if_pos hxy]

theorem isl_lexLTb {α β : Type} [DecidableEq α] {ltA : α → α → Bool}
    {ltB : β → β → Bool} (HA : IsStrictLinear ltA) (HB : IsStrictLinear ltB) :
    IsStrictLinear (lexLTb ltA ltB) := by
  refine ⟨?_, ?_, ?_⟩
  · intro a
    rw [lexLTb, HA.irrefl, HB.irrefl]
    simp
  · intro a b c hab hbc
    rw [lexLTb, Bool.or_eq_true, Bool.and_eq_true, decide_eq_true_eq] at hab hbc ⊢
    rcases hab with hab | ⟨hab1, hab2⟩
    · rcases hbc with hbc | ⟨hbc1, hbc2⟩
      · exact Or.inl (HA.trans _ _ _ hab hbc)
      · exact Or.inl (hbc1 ▸ hab)
    · rcases hbc with hbc | ⟨hbc1, hbc2⟩
      · exact Or.inl (hab1 ▸ hbc)
      · exact Or.inr ⟨hab1.trans hbc1, HB.trans _ _ _ hab2 hbc2⟩
  · intro a b hne
    by_cases h1 : a.1 = b.1
    · have h2 : a.2 ≠ b.2 := by
        intro h2
        exact hne (Prod.ext h1 h2)
      rcases HB.total a.2 b.2 h2 with h | h
      · refine Or.inl ?_
        rw [lexLTb, Bool.or_eq_true, Bool.and_eq_true, decide_eq_true_eq]
        exact Or.inr ⟨h1, h⟩
      · refine Or.inr ?_
        rw [lexLTb, Bool.or_eq_true, Bool.and_eq_true, decide_eq_true_eq]
        exact Or.inr ⟨h1.symm, h⟩
    · rcases HA.total a.1 b.1 h1 with h | h
      · refine Or.inl ?_
        rw [lexLTb, Bool.or_eq_true]
        exact Or.inl h
      · refine Or.inr ?_
        rw [lexLTb, Bool.or_eq_true]
        exact Or.inl h

theorem isl_keyLT : IsStrictLinear keyLT :=
  isl_lexLTb isl_boolLTb
    (isl_lexLTb isl_ratLTb
      (isl_lexLTb isl_ratLTb (isl_lexLTb isl_listLTb isl_listLTb)))

/-! ### Generic properties of pandas rank(method="first", ascending=False) -/

theorem countP_exclusive_le {α : Type} (p q : α → Bool)
    (hex : ∀ x, ¬(p x = true ∧ q x = true)) :
    ∀ l : List α, l.countP p + l.countP q ≤ l.length := by
  intro l
  induction l with
  | nil => simp
  | cons a rest ih =>
    rw [List.countP_cons, List.countP_cons, List.length_cons]
    by_cases hp : p a = true
    · have hq : ¬(q a = true) := fun hq => hex a ⟨hp, hq⟩
      rw [if_pos hp, if_neg hq]
      omega
    · rw [if_neg hp]
      by_cases hq : q a = true
      · rw [if_pos hq]
        omega
      · rw [if_neg hq]
        omega

theorem countP_pair_le {α : Type} (p q r : α → Bool) :
    ∀ l : List α, (∀ x ∈ l, p x = true → r x = true) →
      (∀ x ∈ l, q x = true → r x = true) →
      (∀ x, ¬(p x = true ∧ q x = true)) →
      l.countP p + l.countP q ≤ l.countP r := by
  intro l
  induction l with
  | nil => simp
  | cons a rest ih =>
    intro hp hq hex
    rw [List.countP_cons, List.countP_cons, List.countP_cons]
    have hrec := ih (fun x hx => hp x (List.mem_cons_of_mem a hx))
      (fun x hx => hq x (List.mem_cons_of_mem a hx)) hex
    by_cases hpa : p a = true
    · have hra : r a = true := hp a (List.mem_cons_self a rest) hpa
      have hqa : ¬(q a = true) := fun h => hex a ⟨hpa, h⟩
      rw [if_pos hpa, if_neg hqa, if_pos hra]
      omega
    · by_cases hqa : q a = true
      · have hra : r a = true := hq a (List.mem_cons_self a rest) hqa
        rw [if_neg hpa, if_pos hqa, if_pos hra]
        omega
      · rw [if_neg hpa, if_neg hqa]
        by_cases hra : r a = true
        · rw [if_pos hra]
          omega
        · rw [if_neg hra]
          omega

theorem countP_take_succ {α : Type} (p : α → Bool) (l : List α) (i : Nat)
    (h : i < l.length) :
    (l.take (i + 1)).countP p =
      (l.take i).countP p + (if p l[i] = true then 1 else 0) := by
  rw [List.take_succ, List.countP_append, List.getElem?_eq_getElem h]
  simp [List.countP_cons]

theorem countP_take_mono {α : Type} (p : α → Bool) (l : List α) (i j : Nat)
    (hij : i ≤ j) : (l.take i).countP p ≤ (l.take j).countP p := by
  have h1 : l.take i = (l.take j).take i := by
    rw [List.take_take, Nat.min_eq_left hij]
  rw [h1]
  exact List.Sublist.countP_le p (List.take_sublist i (l.take j))

theorem countP_split_at {α : Type} (p : α → Bool) (l : List α) (i : Nat)
    (h : i < l.length) :
    l.countP p = (l.take i).countP p + (if p l[i] = true then 1 else 0) +
      (l.drop (i + 1)).countP p := by
  conv_lhs => rw [← List.take_append_drop (i + 1) l]
  rw [List.countP_append, countP_take_succ p l i h]

theorem rankFirstDescAux_length {α : Type} [DecidableEq α] (lt : α → α → Bool)
    (keys : List α) : ∀ (l : List α) (s : Nat),
      (rankFirstDescAux lt keys s l).length = l.length := by
  intro l
  induction l with
  | nil => intro s; rfl
  | cons a rest ih =>
    intro s
    rw [rankFirstDescAux, List.length_cons, List.length_cons, ih]

theorem rankFirstDesc_length {α : Type} [DecidableEq α] (lt : α → α → Bool)
    (keys : List α) : (rankFirstDesc lt keys).length = keys.length :=
  rankFirstDescAux_length lt keys keys 0

theorem rankFirstDescAux_getElem {α : Type} [DecidableEq α] (lt : α → α → Bool)
    (keys : List α) : ∀ (l : List α) (s i : Nat) (hi : i < l.length)
      (hi' : i < (rankFirstDescAux lt keys s l).length),
      (rankFirstDescAux lt keys s l)[i] = rankAt lt keys (s + i) l[i] := by
  intro l
  induction l with
  | nil =>
    intro s i hi
    simp at hi
  | cons a rest ih =>
    intro s i hi hi'
    cases i with
    | zero =>
      show rankAt lt keys s a = rankAt lt keys (s + 0) a
      rw [Nat.add_zero]
    | succ i' =>
      have hir : i' < rest.length := by simpa using hi
      have hlen2 : i' < (rankFirstDescAux lt keys (s + 1) rest).length := by
        rw [rankFirstDescAux_length]
        exact hir
      have hdef : rankFirstDescAux lt keys s (a :: rest) =
          rankAt lt keys s a :: rankFirstDescAux lt keys (s + 1) rest := rfl
      simp only [hdef, List.getElem_cons_succ]
      rw [ih (s + 1) i' hir hlen2]
      congr 1
      omega

theorem rankFirstDesc_getElem {α : Type} [DecidableEq α] (lt : α → α → Bool)
    (keys : List α) (i : Nat) (hi : i < keys.length)
    (hi' : i < (rankFirstDesc lt keys).length) :
    (rankFirstDesc lt keys)[i] = rankAt lt keys i keys[i] := by
  have hdef : rankFirstDesc lt keys = rankFirstDescAux lt keys 0 keys := rfl
  have hi2 : i < (rankFirstDescAux lt keys 0 keys).length := by
    rw [rankFirstDescAux_length]
    exact hi
  simp only [hdef]
  rw [rankFirstDescAux_getElem lt keys keys 0 i hi hi2, Nat.zero_add]

theorem rankAt_bounds {α : Type} [DecidableEq α] {lt : α → α → Bool}
    (H : IsStrictLinear lt) (keys : List α) (i : Nat) (hi : i < keys.length) :
    1 ≤ rankAt lt keys i keys[i] ∧ rankAt lt keys i keys[i] ≤ keys.length := by
  constructor
  · rw [rankAt]
    omega
  · rw [rankAt]
    have hsplit := countP_split_at (fun b => lt keys[i] b) keys i hi
    rw [H.irrefl keys[i]] at hsplit
    simp only [Bool.false_eq_true, if_false] at hsplit
    have hex : ∀ x, ¬((fun b => lt keys[i] b) x = true ∧
        (fun b => b == keys[i]) x = true) := by
      rintro x ⟨h1, h2⟩
      simp only [beq_iff_eq] at h2
      subst h2
      have h1b : lt keys[i] keys[i] = true := h1
      rw [H.irrefl] at h1b
      exact absurd h1b (by simp)
    have h1 := countP_exclusive_le _ _ hex (keys.take i)
    have hlt : (keys.take i).length = i := by
      rw [List.length_take]
      omega
    have h2 : (keys.drop (i + 1)).countP (fun b => lt keys[i] b) ≤
        keys.length - i - 1 := by
      have := List.countP_le_length (l := keys.drop (i + 1))
        (p := fun b => lt keys[i] b)
      rw [List.length_drop] at this
      omega
    omega

theorem rankAt_lt_of_keyGT {α : Type} [DecidableEq α] {lt : α → α → Bool}
    (H : IsStrictLinear lt) (keys : List α) (i j : Nat) (hi : i < keys.length)
    (hj : j < keys.length) (hlt : lt keys[j] keys[i] = true) :
    rankAt lt keys i keys[i] < rankAt lt keys j keys[j] := by
  rw [rankAt, rankAt]
  have hsub := countP_pair_le (fun b => lt keys[i] b) (fun b => b == keys[i])
    (fun b => lt keys[j] b) keys
    (fun x _ hx => H.trans _ _ _ hlt hx)
    (fun x _ hx => by
      simp only [beq_iff_eq] at hx
      subst hx
      exact hlt)
    (by
      rintro x ⟨h1, h2⟩
      simp only [beq_iff_eq] at h2
      subst h2
      have h1b : lt keys[i] keys[i] = true := h1
      rw [H.irrefl] at h1b
      exact absurd h1b (by simp))
  have hsplit := countP_split_at (fun b => b == keys[i]) keys i hi
  have hself : (keys[i] == keys[i] : Bool) = true := beq_self_eq_true _
  rw [hself] at hsplit
  simp only [if_pos] at hsplit
  have hEj : 0 ≤ (keys.take j).countP (fun b => b == keys[j]) := Nat.zero_le _
  omega

theorem rankAt_lt_of_eq_earlier {α : Type} [DecidableEq α] {lt : α → α → Bool}
    (H : IsStrictLinear lt) (keys : List α) (i j : Nat) (hi : i < keys.length)
    (hj : j < keys.length) (hij : i < j) (heq : keys[i] = keys[j]) :
    rankAt lt keys i keys[i] < rankAt lt keys j keys[j] := by
  rw [rankAt, rankAt, ← heq]
  have h1 : (keys.take (i + 1)).countP (fun b => b == keys[i]) =
      (keys.take i).countP (fun b => b == keys[i]) + 1 := by
    rw [countP_take_succ _ keys i hi, beq_self_eq_true]
    simp
  have h2 := countP_take_mono (fun b => b == keys[i]) keys (i + 1) j hij
  omega

theorem rankFirstDesc_nodup {α : Type} [DecidableEq α] {lt : α → α → Bool}
    (H : IsStrictLinear lt) (keys : List α) : (rankFirstDesc lt keys).Nodup := by
  rw [List.Nodup, List.pairwise_iff_getElem]
  intro i j hi hj hij
  have hik : i < keys.length := by rwa [rankFirstDesc_length] at hi
  have hjk : j < keys.length := by rwa [rankFirstDesc_length] at hj
  rw [rankFirstDesc_getElem lt keys i hik hi, rankFirstDesc_getElem lt keys j hjk hj]
  by_cases heq : keys[i] = keys[j]
  · exact Nat.ne_of_lt (rankAt_lt_of_eq_earlier H keys i j hik hjk hij heq)
  · rcases H.total _ _ heq with h | h
    · exact (Nat.ne_of_lt (rankAt_lt_of_keyGT H keys j i hjk hik h)).symm
    · exact Nat.ne_of_lt (rankAt_lt_of_keyGT H keys i j hik hjk h)

theorem rankFirstDesc_perm {α : Type} [DecidableEq α] {lt : α → α → Bool}
    (H : IsStrictLinear lt) (keys : List α) :
    (rankFirstDesc lt keys).Perm (List.range' 1 keys.length) := by
  have hnd := rankFirstDesc_nodup H keys
  have hsub : rankFirstDesc lt keys ⊆ List.range' 1 keys.length := by
    intro x hx
    rcases List.mem_iff_getElem.mp hx with ⟨i, hi, rfl⟩
    have hik : i < keys.length := by rwa [rankFirstDesc_length] at hi
    rw [rankFirstDesc_getElem lt keys i hik hi]
    have hb := rankAt_bounds H keys i hik
    rw [List.mem_range'_1]
    omega
  have hlen : (List.range' 1 keys.length).length ≤ (rankFirstDesc lt keys).length := by
    rw [List.length_range', rankFirstDesc_length]
  exact (hnd.subperm hsub).perm_of_length_le hlen

theorem rankKeys_length (prim sec : List (List ℚ)) (hlen : prim.length = sec.length) :
    (rankKeys prim sec).length = prim.length := by
  rw [rankKeys, List.length_map, List.length_zip, List.length_zip]
  rw [flag_pareto_optimal, List.length_map]
  omega

/-- On NaN-free keys the float tuple comparison coincides with the
rational key comparison used by the ranking theorem. -/
theorem keyLTfl_toFl (k1 k2 : RKey) :
    keyLTfl (toFl k1) (toFl k2) = keyLT k1 k2 := by
  obtain ⟨b1, e1, c1, p1, s1⟩ := k1
  obtain ⟨b2, e2, c2, p2, s2⟩ := k2
  simp [keyLTfl, keyLT, lexLTb, toFl, flLT, flEq, ratLTb]

/-- When every primary row is non-zero, no NaN arises and the float keys
are exactly the embedded rational keys: the restricted ranking theorem
speaks about the very comparisons the floats perform. -/
theorem rankKeysFl_eq_map_toFl (prim sec : List (List ℚ))
    (hnz : ∀ r ∈ prim, normSq r ≠ 0) :
    rankKeysFl prim sec = (rankKeys prim sec).map toFl := by
  rw [rankKeysFl, rankKeys, List.map_map]
  refine List.map_congr_left (fun fps hmem => ?_)
  have hp : fps.2.1 ∈ prim := (List.of_mem_zip ((List.of_mem_zip hmem).2)).1
  show (fps.1, compute_energy fps.2.1, centralityKeyFl fps.2.1, fps.2.1, fps.2.2) =
    toFl (fps.1, compute_energy fps.2.1, centralityKey fps.2.1, fps.2.1, fps.2.2)
  rw [toFl, centralityKeyFl, if_neg (hnz _ hp)]

/-- C1 counterexample: on the population with primary rows
`[[0,0],[-1,1],[1,-1]]` (secondary rows all `[0]`) the code computes NaN
centrality for the zero row (`0/0`), and under Python's float tuple
comparison that row's composite key is distinct from — yet incomparable
with, in both directions — each of the other two keys, while those two
keys are strictly ordered between themselves.  The composite-key
comparison is therefore not a linear order on this population (the
"not less than" relation is not transitive), so the claimed unconditional
"descending by the composite key, identical tuples by input position,
never arbitrary" ordering does not exist here, refuting the claim over
populations containing a zero primary vector. -/
theorem get_ranks_key_nan_counterexample :
    centralityKeyFl [0, 0] = none ∧
    (rankKeysFl [[0, 0], [-1, 1], [1, -1]] [[0], [0], [0]]).length = 3 ∧
    keyLTfl ((rankKeysFl [[0, 0], [-1, 1], [1, -1]] [[0], [0], [0]]).getD 0
        (false, 0, none, [], []))
      ((rankKeysFl [[0, 0], [-1, 1], [1, -1]] [[0], [0], [0]]).getD 1
        (false, 0, none, [], [])) = false ∧
    keyLTfl ((rankKeysFl [[0, 0], [-1, 1], [1, -1]] [[0], [0], [0]]).getD 1
        (false, 0, none, [], []))
      ((rankKeysFl [[0, 0], [-1, 1], [1, -1]] [[0], [0], [0]]).getD 0
        (false, 0, none, [], [])) = false ∧
    (rankKeysFl [[0, 0], [-1, 1], [1, -1]] [[0], [0], [0]]).getD 0
        (false, 0, none, [], []) ≠
      (rankKeysFl [[0, 0], [-1, 1], [1, -1]] [[0], [0], [0]]).getD 1
        (false, 0, none, [], []) ∧
    keyLTfl ((rankKeysFl [[0, 0], [-1, 1], [1, -1]] [[0], [0], [0]]).getD 1
        (false, 0, none, [], []))
      ((rankKeysFl [[0, 0], [-1, 1], [1, -1]] [[0], [0], [0]]).getD 2
        (false, 0, none, [], [])) = true ∧
    keyLTfl ((rankKeysFl [[0, 0], [-1, 1], [1, -1]] [[0], [0], [0]]).getD 0
        (false, 0, none, [], []))
      ((rankKeysFl [[0, 0], [-1, 1], [1, -1]] [[0], [0], [0]]).getD 2
        (false, 0, none, [], [])) = false ∧
    keyLTfl ((rankKeysFl [[0, 0], [-1, 1], [1, -1]] [[0], [0], [0]]).getD 2
        (false, 0, none, [], []))
      ((rankKeysFl [[0, 0], [-1, 1], [1, -1]] [[0], [0], [0]]).getD 0
        (false, 0, none, [], [])) = false ∧
    (rankKeysFl [[0, 0], [-1, 1], [1, -1]] [[0], [0], [0]]).getD 0
        (false, 0, none, [], []) ≠
      (rankKeysFl [[0, 0], [-1, 1], [1, -1]] [[0], [0], [0]]).getD 2
        (false, 0, none, [], []) := by
  have hkeys : rankKeysFl [[0, 0], [-1, 1], [1, -1]] [[0], [0], [0]] =
      [(true, 0, none, [0, 0], [0]),
       (true, 0, some 0, [-1, 1], [0]),
       (true, 0, some 0, [1, -1], [0])] := by
    norm_num [rankKeysFl, flag_pareto_optimal, _check_pareto_optimal,
      drop_duplicates, ddGo, leAll, compute_energy, normSq, centralityKey,
      centralityKeyFl, List.countP_cons, List.countP_nil]
  rw [hkeys]
  norm_num [keyLTfl, flLT, flEq, boolLTb, ratLTb, listLTb, centralityKeyFl, normSq]

/-- C1 (amended): on every population with matching frame indexes,
disjoint attribute names, and every primary row non-zero (so that no NaN
centrality arises — see `get_ranks_key_nan_counterexample` for a zero
row), `get_ranks` assigns ranks that are a permutation of `{1..N}`
(dense, no ties, no gaps), ordered descending by the composite key
(Pareto flag, energy, centrality, primary attributes, secondary
attributes) compared lexicographically (`keyLT` over `rankKeys` — which
under the non-zero hypothesis is exactly the float tuple comparison, by
the `rankKeysFl` conjunct together with `keyLTfl_toFl`), with equal key
tuples ordered by input position (earlier input gets the lower rank),
and — the model being a pure function — re-running on identical input
yields identical ranks. -/
theorem get_ranks_bijection_stable (primCols secCols : List String)
    (prim sec : List (List ℚ))
    (hlen : prim.length = sec.length)
    (hdisj : primCols.all (fun c => decide (c ∉ secCols)) = true)
    (hnz : ∀ r ∈ prim, normSq r ≠ 0) :
    get_ranks primCols secCols prim sec =
      .ok (rankFirstDesc keyLT (rankKeys prim sec)) ∧
    rankKeysFl prim sec = (rankKeys prim sec).map toFl ∧
    (rankFirstDesc keyLT (rankKeys prim sec)).length = prim.length ∧
    (rankFirstDesc keyLT (rankKeys prim sec)).Perm (List.range' 1 prim.length) ∧
    (∀ i j (hi : i < (rankKeys prim sec).length)
        (hj : j < (rankKeys prim sec).length)
        (hi' : i < (rankFirstDesc keyLT (rankKeys prim sec)).length)
        (hj' : j < (rankFirstDesc keyLT (rankKeys prim sec)).length),
      keyLT (rankKeys prim sec)[j] (rankKeys prim sec)[i] = true →
        (rankFirstDesc keyLT (rankKeys prim sec))[i] <
          (rankFirstDesc keyLT (rankKeys prim sec))[j]) ∧
    (∀ i j (hi : i < (rankKeys prim sec).length)
        (hj : j < (rankKeys prim sec).length)
        (hi' : i < (rankFirstDesc keyLT (rankKeys prim sec)).length)
        (hj' : j < (rankFirstDesc keyLT (rankKeys prim sec)).length),
      i < j → (rankKeys prim sec)[i] = (rankKeys prim sec)[j] →
        (rankFirstDesc keyLT (rankKeys prim sec))[i] <
          (rankFirstDesc keyLT (rankKeys prim sec))[j]) ∧
    get_ranks primCols secCols prim sec = get_ranks primCols secCols prim sec := by
  have hkl := rankKeys_length prim sec hlen
  refine ⟨?_, rankKeysFl_eq_map_toFl prim sec hnz, ?_, ?_, ?_, ?_, rfl⟩
  · unfold get_ranks
    rw [if_pos hlen, if_pos hdisj]
  · rw [rankFirstDesc_length, hkl]
  · have hp := rankFirstDesc_perm isl_keyLT (rankKeys prim sec)
    rwa [hkl] at hp
  · intro i j hi hj hi' hj' hlt
    rw [rankFirstDesc_getElem keyLT _ i hi hi',
      rankFirstDesc_getElem keyLT _ j hj hj']
    exact rankAt_lt_of_keyGT isl_keyLT _ i j hi hj hlt
  · intro i j hi hj hi' hj' hij heq
    rw [rankFirstDesc_getElem keyLT _ i hi hi',
      rankFirstDesc_getElem keyLT _ j hj hj']
    exact rankAt_lt_of_eq_earlier isl_keyLT _ i j hi hj hij heq

theorem get_ranks_bijection_stable_witness :
    get_ranks ["a"] ["b"] [[(1 : ℚ)], [2]] [[0], [0]] =
      .ok (rankFirstDesc keyLT (rankKeys [[(1 : ℚ)], [2]] [[0], [0]])) ∧
    (rankFirstDesc keyLT (rankKeys [[(1 : ℚ)], [2]] [[0], [0]])).Perm
      (List.range' 1 2) :=
  ⟨(get_ranks_bijection_stable ["a"] ["b"] [[(1 : ℚ)], [2]] [[0], [0]]
      rfl (by decide) (by
        intro r hr
        simp only [List.mem_cons, List.not_mem_nil, or_false] at hr
        rcases hr with rfl | rfl <;> norm_num [normSq])).1,
    (get_ranks_bijection_stable ["a"] ["b"] [[(1 : ℚ)], [2]] [[0], [0]]
      rfl (by decide) (by
        intro r hr
        simp only [List.mem_cons, List.not_mem_nil, or_false] at hr
        rcases hr with rfl | rfl <;> norm_num [normSq])).2.2.2.1⟩
